import Mathlib

/-!
Verification development for the RawParser engine (`src/RawParser.c`).

The C source is shallowly embedded: the text buffer, the grammar model,
the four mutually recursive parsing functions (`parse_nt`, `parse_rule`,
`parse_seq`, `parse_element`), the brute-force cache, the expectation
tracker, and the reference-counted `prev_child` chain are translated into
executable Lean definitions.  Machine-level details are modelled as
follows: byte strings become `List Char`; the `info` pointer of the text
buffer is derived from the offset (`text_buffer_cur`); result values
(`struct result`, a `void*` with inc/dec hooks) become `Option rho` for a
result payload type `rho`, with `result_assign` being plain copying (the
reference-count bookkeeping, which does not influence parse results, is
modelled separately for the `prev_child` chain where a claim depends on
it); the unbounded C recursion is made total with an explicit fuel
argument, `none` standing for a computation that runs out of fuel.
-/

namespace RawParser

/-! ## Text positions and the text buffer (`struct text_pos`, `text_buffer_t`) -/

/-- A position in the input: byte offset plus 1-based line and column
(`struct text_pos` with fields `pos`, `cur_line`, `cur_column`). -/
structure TextPos where
  pos : Nat
  curLine : Nat
  curColumn : Nat
deriving DecidableEq, Repr

/-- The text buffer (`text_buffer_t`).  The C field `info` (pointer to the
byte at the current position) is derived from `pos` and omitted. -/
structure TextBuffer where
  buffer : List Char
  bufferLen : Nat
  pos : TextPos
  tabSize : Nat
deriving DecidableEq, Repr

/-- `text_buffer_assign_string`: wrap an input string, tab size 4,
position at offset 0, line 1, column 1. -/
def text_buffer_assign_string (text : List Char) : TextBuffer :=
  { buffer := text, bufferLen := text.length
    pos := { pos := 0, curLine := 1, curColumn := 1 }, tabSize := 4 }

/-- The byte at the current position, `*text_buffer->info`.  Reading at or
past the end of the buffer yields the terminating NUL of the C string. -/
def text_buffer_cur (tb : TextBuffer) : Char :=
  tb.buffer.getD tb.pos.pos (Char.ofNat 0)

/-- The position update performed by `text_buffer_next` when the cursor is
inside the buffer: switch on the current byte (tab, newline, default). -/
def tb_next_pos (c : Char) (tabSize : Nat) (p : TextPos) : TextPos :=
  if c = '\t' then
    { p with pos := p.pos + 1
             curColumn := p.curColumn + (tabSize - (p.curColumn - 1) % tabSize) }
  else if c = '\n' then
    { p with pos := p.pos + 1, curLine := p.curLine + 1, curColumn := 1 }
  else
    { p with pos := p.pos + 1, curColumn := p.curColumn + 1 }

/-- `text_buffer_next`: advance by one byte when not at the end,
updating line and column; no-op at the end of the buffer. -/
def text_buffer_next (tb : TextBuffer) : TextBuffer :=
  if tb.pos.pos < tb.bufferLen then
    { tb with pos := tb_next_pos (text_buffer_cur tb) tb.tabSize tb.pos }
  else tb

/-- `text_buffer_end`: the cursor is at or past the end of the input. -/
def text_buffer_end (tb : TextBuffer) : Bool :=
  tb.bufferLen ≤ tb.pos.pos

/-- `text_buffer_set_pos`: restore a saved position.  The C function
returns immediately when the byte offset is unchanged. -/
def text_buffer_set_pos (tb : TextBuffer) (p : TextPos) : TextBuffer :=
  if tb.pos.pos = p.pos then tb else { tb with pos := p }

/-- Advance the buffer `n` times (the `while (info < next_pos)` loop of
the `rk_term` case, for a terminal function that consumed `n` bytes). -/
def text_buffer_advance : Nat → TextBuffer → TextBuffer
  | 0, tb => tb
  | n + 1, tb => text_buffer_advance n (text_buffer_next tb)

/-- The position reached by stepping the buffer `n` times from the start
of the input.  Used to say which `(offset, line, column)` triples are
consistent with the buffer contents. -/
def posAt (buffer : List Char) (len tabSize : Nat) : Nat → TextPos
  | 0 => { pos := 0, curLine := 1, curColumn := 1 }
  | n + 1 =>
      let p := posAt buffer len tabSize n
      if p.pos < len then tb_next_pos (buffer.getD p.pos (Char.ofNat 0)) tabSize p else p

/-- A position is valid for a buffer when its line and column are the ones
the buffer's own cursor arithmetic produces for its offset. -/
def PosValid (tb : TextBuffer) (p : TextPos) : Prop :=
  p = posAt tb.buffer tb.bufferLen tb.tabSize p.pos

end RawParser

namespace RawParser

/-! ## The grammar model (`struct non_terminal`, `struct rules`, `struct element`) -/

/-- A result value: the `data` pointer of `struct result`, `none` standing
for the NULL data of an initialized result.  The `inc`/`dec`/`print` hooks
of `struct result` do not influence which value a parse produces and are
dropped here; `result_assign`/`result_transfer` become plain copying. -/
abbrev Res (rho : Type) := Option rho

/-- The element modifiers (`optional`, `sequence`, `back_tracking`,
`avoid` of `struct element`). -/
structure Mods where
  optional : Bool := false
  sequence : Bool := false
  backTracking : Bool := false
  avoid : Bool := false
deriving Repr

/-- The callback slots of `struct element`.  `condition_argument` and the
second argument of `add_char_function` etc. are curried into the stored
functions; a Boolean C callback that fills an output result becomes a
function returning `Option` (`none` = the callback returned FALSE). -/
structure Callbacks (rho : Type) where
  addCharF : Option (Res rho → Char → Option (Res rho)) := none
  conditionF : Option (Res rho → Bool) := none
  addF : Option (Res rho → Res rho → Option (Res rho)) := none
  addSkipF : Option (Res rho → Option (Res rho)) := none
  beginSeqF : Option (Res rho → Res rho) := none
  addSeqF : Option (Res rho → Res rho → Option (Res rho)) := none
  setPosF : Option (Res rho → TextPos → Res rho) := none

mutual

/-- A grammar element (`struct element`): kind-specific info, modifiers,
callbacks, and the optional chain rule (an element chain). -/
inductive Element (rho : Type) : Type where
  | mk (info : ElemInfo rho) (mods : Mods) (cb : Callbacks rho)
       (chainRule : Option (List (Element rho)))

/-- The kind-specific info of an element (`enum element_kind_t` plus the
`info` union).  A non-terminal is referenced by name; `rk_term` carries
the user scan function, modelled as mapping the remaining input to the
number of bytes consumed together with the result it writes. -/
inductive ElemInfo (rho : Type) : Type where
  | nt (name : String)
  | grouping (rules : List (GRule rho))
  | chr (ch : Char)
  | charset (contains : Char → Bool)
  | endOfText
  | term (fn : List Char → Nat × Res rho)

/-- A single rule (`struct rules`): the element chain, the optional end
function (with its `end_function_data` curried in) and the optional
recursion start function. -/
inductive GRule (rho : Type) : Type where
  | mk (elements : List (Element rho))
       (endF : Option (Res rho → Option (Res rho)))
       (recStartF : Option (Res rho → Option (Res rho)))

end

/-- The element's kind info. -/
def Element.info {rho} : Element rho → ElemInfo rho
  | .mk i _ _ _ => i

/-- The element's modifiers. -/
def Element.mods {rho} : Element rho → Mods
  | .mk _ m _ _ => m

/-- The element's callbacks. -/
def Element.cb {rho} : Element rho → Callbacks rho
  | .mk _ _ c _ => c

/-- The element's chain rule. -/
def Element.chainRule {rho} : Element rho → Option (List (Element rho))
  | .mk _ _ _ ch => ch

/-- The rule's element chain. -/
def GRule.elements {rho} : GRule rho → List (Element rho)
  | .mk es _ _ => es

/-- The rule's end function. -/
def GRule.endF {rho} : GRule rho → Option (Res rho → Option (Res rho))
  | .mk _ e _ => e

/-- The rule's recursion start function. -/
def GRule.recStartF {rho} : GRule rho → Option (Res rho → Option (Res rho))
  | .mk _ _ r => r

/-- A non-terminal (`struct non_terminal`): the normal and the
left-recursive rule lists. -/
structure NonTerminal (rho : Type) where
  normal : List (GRule rho) := []
  recursive : List (GRule rho) := []

/-- The grammar: the non-terminal dictionary, keyed by name. -/
abbrev Grammar (rho : Type) := List (String × NonTerminal rho)

/-- Name lookup (`find_nt`).  A name that was never defined behaves as a
non-terminal with two empty rule lists, which is exactly what `find_nt`
creates on first reference. -/
def find_nt {rho} (g : Grammar rho) (name : String) : NonTerminal rho :=
  match g.find? (fun kv => kv.1 = name) with
  | some kv => kv.2
  | none => {}

end RawParser

namespace RawParser

/-! ## Parser state: cache and non-terminal stack (`parser_t`, `cache_item_t`) -/

/-- Parse outcome stored in a cache item (`enum success_t`). -/
inductive SuccessT where
  | unknown
  | fail
  | success
deriving DecidableEq, Repr

/-- A cache item (`cache_item_t`): outcome, memoized result, and the
position parsing should continue from.  A freshly created item has
outcome `unknown`, an empty result and an uninitialized `next_pos`
(modelled as the zero position, which is only read once the outcome has
been set to `success`). -/
structure CacheItem (rho : Type) where
  success : SuccessT
  result : Res rho
  nextPos : TextPos
deriving DecidableEq, Repr

/-- The fresh cache item `solutions_find` creates on the first query. -/
def CacheItem.fresh {rho} : CacheItem rho :=
  { success := .unknown, result := none, nextPos := { pos := 0, curLine := 0, curColumn := 0 } }

/-- The parser state (`parser_t`): the text buffer, the non-terminal call
stack, and the cache.  `cacheEnabled = false` models a NULL
`cache_hit_function`; when enabled, the cache behaves like the reference
"brute-force" implementation (`solutions_find`), a map from
(byte offset, non-terminal name) to cache items that materializes an
`unknown` item on first query. -/
structure PState (rho : Type) where
  tb : TextBuffer
  ntStack : List (String × TextPos)
  cacheEnabled : Bool
  cache : List ((Nat × String) × CacheItem rho)
deriving DecidableEq, Repr

/-- Look up the cache item for (offset, non-terminal); a missing entry is
the fresh `unknown` item `solutions_find` would create. -/
def cache_get {rho} (s : PState rho) (pos : Nat) (nt : String) : CacheItem rho :=
  match s.cache.find? (fun kv => kv.1 = (pos, nt)) with
  | some kv => kv.2
  | none => CacheItem.fresh

/-- Store a cache item under (offset, non-terminal).  `solutions_find`
updates the item in place; the persistent map is updated by shadowing,
which `cache_get` (first match wins) observes identically. -/
def cache_put {rho} (s : PState rho) (pos : Nat) (nt : String) (item : CacheItem rho) :
    PState rho :=
  { s with cache := ((pos, nt), item) :: s.cache }

/-- `nt_stack_push`: push a call frame (name, current position). -/
def nt_stack_push {rho} (name : String) (s : PState rho) : PState rho :=
  { s with ntStack := (name, s.tb.pos) :: s.ntStack }

/-- `nt_stack_pop`: pop the top call frame. -/
def nt_stack_pop {rho} (s : PState rho) : PState rho :=
  { s with ntStack := s.ntStack.tail }

/-- Replace the buffer position (`text_buffer_set_pos` lifted to the
parser state). -/
def set_pos_state {rho} (p : TextPos) (s : PState rho) : PState rho :=
  { s with tb := text_buffer_set_pos s.tb p }

/-- Outcome of a parsing function: failure or success with the value of
the output result parameter, together with the state at return. -/
inductive POut (rho : Type) where
  | fail (s : PState rho)
  | ok (r : Res rho) (s : PState rho)
deriving DecidableEq, Repr

/-- The state at return of an outcome. -/
def POut.state {rho} : POut rho → PState rho
  | .fail s => s
  | .ok _ s => s

/-! ## Shared callback plumbing of `parse_rule` / `parse_seq` -/

/-- The "skip an optional element" result (both skip blocks of
`parse_rule`): apply `add_skip_function` when present, else fall back to
`add_function` with an empty element result, else pass the previous
result through.  `none` means the callback vetoed, failing the rule. -/
def skip_result {rho} (e : Element rho) (prev : Res rho) : Option (Res rho) :=
  match e.cb.addSkipF with
  | some f => f prev
  | none =>
      match e.cb.addF with
      | some f => f prev none
      | none => some prev

/-- Fold a finished sequence into the previous result: the
`DECL_RESULT(result); if (add_seq_function != NULL && !add_seq_function(...))`
pattern.  With no `add_seq_function` the freshly declared empty result is
used unchanged. -/
def add_seq_result {rho} (e : Element rho) (prev seq : Res rho) : Option (Res rho) :=
  match e.cb.addSeqF with
  | some f => f prev seq
  | none => some none

/-- The sequence accumulator seeded at the start of a sequence
(`DECL_RESULT(seq_begin)` plus the optional `begin_seq_function`). -/
def begin_seq_result {rho} (e : Element rho) (prev : Res rho) : Res rho :=
  match e.cb.beginSeqF with
  | some f => f prev
  | none => none

/-- Apply the optional `set_pos` callback to a successful element result
(the tail of `parse_element`). -/
def apply_set_pos {rho} (e : Element rho) (r : Res rho) (sp : TextPos) : Res rho :=
  match e.cb.setPosF with
  | some f => f r sp
  | none => r

end RawParser

namespace RawParser

/-! ## The parsing functions

Each C function becomes one or more Lean functions; the extra ones
(`parse_rule_core`, `parse_rule_post`, `greedy_*`, `parse_seq_*`) are the
labelled join points of the C control flow (the code after the
avoid-optional preface, the restore-and-postface block at the end of
`parse_rule`, the greedy sequence `for (;;)` loop of `parse_rule`, and
the stages of `parse_seq`).  All functions take a fuel argument and
return `none` when it runs out, modelling the unbounded C recursion. -/

variable {rho : Type}

mutual

/-- `parse_nt` (the cache dispatch): on a configured cache, replay a
`success` memo, refuse on `fail`, and on `unknown` seed the item as
`fail` before trying the rules. -/
def parse_nt : Nat → Grammar rho → String → PState rho → Option (POut rho)
  | 0, _, _, _ => none
  | f + 1, g, name, s =>
      if s.cacheEnabled then
        match (cache_get s s.tb.pos.pos name).success with
        | .success =>
            let item := cache_get s s.tb.pos.pos name
            some (.ok item.result (set_pos_state item.nextPos s))
        | .fail => some (.fail s)
        | .unknown =>
            let item := cache_get s s.tb.pos.pos name
            parse_nt_rules f g name s.tb.pos
              (cache_put s s.tb.pos.pos name { item with success := .fail })
      else parse_nt_rules f g name s.tb.pos s

/-- The rule-trying part of `parse_nt`: push the call frame, try the
normal rules, run the left-recursive loop, update the cache item of the
owning call on success, pop the frame. -/
def parse_nt_rules : Nat → Grammar rho → String → TextPos → PState rho → Option (POut rho)
  | 0, _, _, _, _ => none
  | f + 1, g, name, entryPos, s =>
      let nt := find_nt g name
      let s0 := nt_stack_push name s
      match try_rules f g nt.normal s0 with
      | none => none
      | some (.fail s1) => some (.fail (nt_stack_pop s1))
      | some (.ok r s1) =>
          match lr_loop f g nt.recursive r s1 with
          | none => none
          | some (r2, s2) =>
              let s3 :=
                if s2.cacheEnabled then
                  cache_put s2 entryPos.pos name
                    { success := .success, result := r2, nextPos := s2.tb.pos }
                else s2
              some (.ok r2 (nt_stack_pop s3))

/-- The `for (rules_p rule = non_term->normal; ...)` loop of `parse_nt`:
try each normal rule in declaration order, starting from an empty result;
the first success wins. -/
def try_rules : Nat → Grammar rho → List (GRule rho) → PState rho → Option (POut rho)
  | 0, _, _, _ => none
  | f + 1, g, rules, s =>
      match rules with
      | [] => some (.fail s)
      | rule :: rest =>
          match parse_rule f g rule.elements none (some rule) s with
          | none => none
          | some (.ok r s1) => some (.ok r s1)
          | some (.fail s1) => try_rules f g rest s1

/-- One pass of the left-recursive loop of `parse_nt`: scan the
left-recursive rules in declaration order; for each, compute its start
result with `rec_start_function` (skipping the rule when it returns
FALSE, and starting from an empty result when the pointer is absent) and
try the rule; the first success wins. -/
def lr_scan : Nat → Grammar rho → List (GRule rho) → Res rho → PState rho → Option (POut rho)
  | 0, _, _, _, _ => none
  | f + 1, g, rules, res, s =>
      match rules with
      | [] => some (.fail s)
      | rule :: rest =>
          match (match rule.recStartF with
                 | some rsf => rsf res
                 | none => some none) with
          | none => lr_scan f g rest res s
          | some startRes =>
              match parse_rule f g rule.elements startRes (some rule) s with
              | none => none
              | some (.ok r s1) => some (.ok r s1)
              | some (.fail s1) => lr_scan f g rest res s1

/-- The `while (parsed_a_rule)` loop of `parse_nt`: repeat full passes
over the left-recursive rules, replacing the current result and
restarting after every successful pass, until a pass matches no rule. -/
def lr_loop : Nat → Grammar rho → List (GRule rho) → Res rho → PState rho →
    Option (Res rho × PState rho)
  | 0, _, _, _, _ => none
  | f + 1, g, rules, res, s =>
      match lr_scan f g rules res s with
      | none => none
      | some (.fail s1) => some (res, s1)
      | some (.ok r s1) => lr_loop f g rules r s1

/-- `parse_rule`: the end-of-rule case (end function), the avoid-optional
preface, then the core attempt. -/
def parse_rule : Nat → Grammar rho → List (Element rho) → Res rho → Option (GRule rho) →
    PState rho → Option (POut rho)
  | 0, _, _, _, _, _ => none
  | f + 1, g, elems, prev, rule, s =>
      match elems with
      | [] =>
          match rule with
          | none => some (.ok prev s)
          | some r =>
              match r.endF with
              | none => some (.ok prev s)
              | some ef =>
                  match ef prev with
                  | none => some (.fail s)
                  | some out => some (.ok out s)
      | e :: next =>
          if e.mods.optional && e.mods.avoid then
            match skip_result e prev with
            | none => some (.fail s)
            | some sr =>
                match parse_rule f g next sr rule s with
                | none => none
                | some (.ok r s1) => some (.ok r s1)
                | some (.fail s1) => parse_rule_core f g e next prev rule s1
          else parse_rule_core f g e next prev rule s

/-- The core attempt of `parse_rule` on its first element: save the
position, then the sequence cases (back-tracking or greedy) or the plain
element-then-tail case; on failure continue with the
restore-and-postface block. -/
def parse_rule_core : Nat → Grammar rho → Element rho → List (Element rho) → Res rho →
    Option (GRule rho) → PState rho → Option (POut rho)
  | 0, _, _, _, _, _, _ => none
  | f + 1, g, e, next, prev, rule, s =>
      let sp := s.tb.pos
      if e.mods.sequence then
        match parse_element f g e (begin_seq_result e prev) s with
        | none => none
        | some (.fail s1) => parse_rule_post f g e next prev rule sp s1
        | some (.ok seqElem s1) =>
            if e.mods.backTracking then
              match parse_seq f g e next seqElem prev rule s1 with
              | none => none
              | some (.ok r s2) => some (.ok r s2)
              | some (.fail s2) => parse_rule_post f g e next prev rule sp s2
            else
              match greedy_seq f g e next prev rule seqElem s1 with
              | none => none
              | some (.ok r s2) => some (.ok r s2)
              | some (.fail s2) => parse_rule_post f g e next prev rule sp s2
      else
        match parse_element f g e prev s with
        | none => none
        | some (.fail s1) => parse_rule_post f g e next prev rule sp s1
        | some (.ok elemRes s1) =>
            match parse_rule f g next elemRes rule s1 with
            | none => none
            | some (.ok r s2) => some (.ok r s2)
            | some (.fail s2) => parse_rule_post f g e next prev rule sp s2

/-- The tail of `parse_rule` after a failed core attempt: restore the
saved position, then (for an optional element without `avoid`) skip the
element and try the rest of the rule. -/
def parse_rule_post : Nat → Grammar rho → Element rho → List (Element rho) → Res rho →
    Option (GRule rho) → TextPos → PState rho → Option (POut rho)
  | 0, _, _, _, _, _, _, _ => none
  | f + 1, g, e, next, prev, rule, sp, s =>
      let s1 := set_pos_state sp s
      if e.mods.optional && !e.mods.avoid then
        match skip_result e prev with
        | none => some (.fail s1)
        | some sr =>
            match parse_rule f g next sr rule s1 with
            | none => none
            | some (.ok r s2) => some (.ok r s2)
            | some (.fail s2) => some (.fail s2)
      else some (.fail s1)

/-- Head of the greedy (non-back-tracking) sequence loop `for (;;)` in
`parse_rule`: with `avoid`, first try to terminate the sequence (fold the
accumulator and parse the rule tail). -/
def greedy_seq : Nat → Grammar rho → Element rho → List (Element rho) → Res rho →
    Option (GRule rho) → Res rho → PState rho → Option (POut rho)
  | 0, _, _, _, _, _, _, _ => none
  | f + 1, g, e, next, prev, rule, seqElem, s =>
      if e.mods.avoid then
        match add_seq_result e prev seqElem with
        | none => greedy_fin f g e next prev rule seqElem s
        | some res =>
            match parse_rule f g next res rule s with
            | none => none
            | some (.ok r s1) => some (.ok r s1)
            | some (.fail s1) => greedy_step f g e next prev rule seqElem s1
      else greedy_step f g e next prev rule seqElem s

/-- Body of the greedy sequence loop: save the position and parse the
chain rule if there is one; on chain failure leave the loop. -/
def greedy_step : Nat → Grammar rho → Element rho → List (Element rho) → Res rho →
    Option (GRule rho) → Res rho → PState rho → Option (POut rho)
  | 0, _, _, _, _, _, _, _ => none
  | f + 1, g, e, next, prev, rule, seqElem, s =>
      let sp := s.tb.pos
      match e.chainRule with
      | some chain =>
          match parse_rule f g chain none none s with
          | none => none
          | some (.fail s1) => greedy_fin f g e next prev rule seqElem s1
          | some (.ok _ s1) => greedy_ext f g e next prev rule seqElem sp s1
      | none => greedy_ext f g e next prev rule seqElem sp s

/-- Extension step of the greedy sequence loop: parse one more sequence
element; on success loop with the new accumulator, on failure restore the
iteration's saved position and leave the loop. -/
def greedy_ext : Nat → Grammar rho → Element rho → List (Element rho) → Res rho →
    Option (GRule rho) → Res rho → TextPos → PState rho → Option (POut rho)
  | 0, _, _, _, _, _, _, _, _ => none
  | f + 1, g, e, next, prev, rule, seqElem, sp, s =>
      match parse_element f g e seqElem s with
      | none => none
      | some (.ok newElem s1) => greedy_seq f g e next prev rule newElem s1
      | some (.fail s1) => greedy_fin f g e next prev rule seqElem (set_pos_state sp s1)

/-- The code after the greedy sequence loop: fold the accumulator with
`add_seq_function` and parse the rule tail; any failure here propagates
to the restore-and-postface block of `parse_rule`. -/
def greedy_fin : Nat → Grammar rho → Element rho → List (Element rho) → Res rho →
    Option (GRule rho) → Res rho → PState rho → Option (POut rho)
  | 0, _, _, _, _, _, _, _ => none
  | f + 1, g, e, next, prev, rule, seqElem, s =>
      match add_seq_result e prev seqElem with
      | none => some (.fail s)
      | some res =>
          match parse_rule f g next res rule s with
          | none => none
          | some (.ok r s1) => some (.ok r s1)
          | some (.fail s1) => some (.fail s1)

/-- `parse_seq` (back-tracking sequences): with `avoid`, first try to
terminate the sequence; then try to extend it. -/
def parse_seq : Nat → Grammar rho → Element rho → List (Element rho) → Res rho → Res rho →
    Option (GRule rho) → PState rho → Option (POut rho)
  | 0, _, _, _, _, _, _, _ => none
  | f + 1, g, e, next, prevSeq, prev, rule, s =>
      if e.mods.avoid then
        match add_seq_result e prev prevSeq with
        | none => some (.fail s)
        | some res =>
            match parse_rule f g next res rule s with
            | none => none
            | some (.ok r s1) => some (.ok r s1)
            | some (.fail s1) => parse_seq_step f g e next prevSeq prev rule s1
      else parse_seq_step f g e next prevSeq prev rule s

/-- Middle of `parse_seq`: save the position and parse the chain rule if
there is one; on chain failure fall through to termination. -/
def parse_seq_step : Nat → Grammar rho → Element rho → List (Element rho) → Res rho →
    Res rho → Option (GRule rho) → PState rho → Option (POut rho)
  | 0, _, _, _, _, _, _, _ => none
  | f + 1, g, e, next, prevSeq, prev, rule, s =>
      let sp := s.tb.pos
      match e.chainRule with
      | some chain =>
          match parse_rule f g chain none none s with
          | none => none
          | some (.fail s1) => parse_seq_fin f g e next prevSeq prev rule sp s1
          | some (.ok _ s1) => parse_seq_ext f g e next prevSeq prev rule sp s1
      | none => parse_seq_ext f g e next prevSeq prev rule sp s

/-- Extension step of `parse_seq`: parse one more sequence element and
recurse; on failure fall through to termination. -/
def parse_seq_ext : Nat → Grammar rho → Element rho → List (Element rho) → Res rho →
    Res rho → Option (GRule rho) → TextPos → PState rho → Option (POut rho)
  | 0, _, _, _, _, _, _, _, _ => none
  | f + 1, g, e, next, prevSeq, prev, rule, sp, s =>
      match parse_element f g e prevSeq s with
      | none => none
      | some (.ok seqElem s1) =>
          match parse_seq f g e next seqElem prev rule s1 with
          | none => none
          | some (.ok r s2) => some (.ok r s2)
          | some (.fail s2) => parse_seq_fin f g e next prevSeq prev rule sp s2
      | some (.fail s1) => parse_seq_fin f g e next prevSeq prev rule sp s1

/-- End of `parse_seq`: restore the saved position and, when `avoid` did
not already try it, fold the accumulator and parse the rule tail. -/
def parse_seq_fin : Nat → Grammar rho → Element rho → List (Element rho) → Res rho →
    Res rho → Option (GRule rho) → TextPos → PState rho → Option (POut rho)
  | 0, _, _, _, _, _, _, _, _ => none
  | f + 1, g, e, next, prevSeq, prev, rule, sp, s =>
      let s1 := set_pos_state sp s
      if !e.mods.avoid then
        match add_seq_result e prev prevSeq with
        | none => some (.fail s1)
        | some res =>
            match parse_rule f g next res rule s1 with
            | none => none
            | some (.ok r s2) => some (.ok r s2)
            | some (.fail s2) => some (.fail s2)
      else some (.fail s1)

/-- `parse_element`: kind dispatch with the saved start position; note
that the `rk_char` / `rk_charset` cases return failure after an
`add_char_function` veto without restoring the advanced buffer. -/
def parse_element : Nat → Grammar rho → Element rho → Res rho → PState rho → Option (POut rho)
  | 0, _, _, _, _ => none
  | f + 1, g, e, prev, s =>
      let sp := s.tb.pos
      match e.info with
      | .nt name =>
          match parse_nt f g name s with
          | none => none
          | some (.fail s1) => some (.fail s1)
          | some (.ok ntRes s1) =>
              if (match e.cb.conditionF with
                  | some c => !(c ntRes)
                  | none => false) then
                some (.fail (set_pos_state sp s1))
              else
                match e.cb.addF with
                | none => some (.ok (apply_set_pos e prev sp) s1)
                | some af =>
                    match af prev ntRes with
                    | none => some (.fail (set_pos_state sp s1))
                    | some r => some (.ok (apply_set_pos e r sp) s1)
      | .grouping rules =>
          match grouping_try f g rules prev s with
          | none => none
          | some (.fail s1) => some (.fail s1)
          | some (.ok ruleRes s1) =>
              match e.cb.addF with
              | none => some (.ok (apply_set_pos e ruleRes sp) s1)
              | some af =>
                  match af prev ruleRes with
                  | none => some (.fail (set_pos_state sp s1))
                  | some r => some (.ok (apply_set_pos e r sp) s1)
      | .endOfText =>
          if text_buffer_end s.tb then some (.ok (apply_set_pos e prev sp) s)
          else some (.fail s)
      | .chr c =>
          if text_buffer_cur s.tb = c then
            let s1 := { s with tb := text_buffer_next s.tb }
            match e.cb.addCharF with
            | none => some (.ok (apply_set_pos e prev sp) s1)
            | some acf =>
                match acf prev c with
                | none => some (.fail s1)
                | some r => some (.ok (apply_set_pos e r sp) s1)
          else some (.fail s)
      | .charset contains =>
          if contains (text_buffer_cur s.tb) then
            let ch := text_buffer_cur s.tb
            let s1 := { s with tb := text_buffer_next s.tb }
            match e.cb.addCharF with
            | none => some (.ok (apply_set_pos e prev sp) s1)
            | some acf =>
                match acf prev ch with
                | none => some (.fail s1)
                | some r => some (.ok (apply_set_pos e r sp) s1)
          else some (.fail s)
      | .term fn =>
          let nr := fn (s.tb.buffer.drop s.tb.pos.pos)
          if nr.1 = 0 then some (.fail s)
          else if s.tb.pos.pos + nr.1 ≤ s.tb.bufferLen then
            some (.ok (apply_set_pos e nr.2 sp) { s with tb := text_buffer_advance nr.1 s.tb })
          else none

/-- The rule loop of the `rk_grouping` case of `parse_element`: try each
inner rule in order, each starting from a copy of the previous result;
the first success yields the grouping's rule result. -/
def grouping_try : Nat → Grammar rho → List (GRule rho) → Res rho → PState rho →
    Option (POut rho)
  | 0, _, _, _, _ => none
  | f + 1, g, rules, prev, s =>
      match rules with
      | [] => some (.fail s)
      | rule :: rest =>
          match parse_rule f g rule.elements prev (some rule) s with
          | none => none
          | some (.ok r s1) => some (.ok r s1)
          | some (.fail s1) => grouping_try f g rest prev s1

end

end RawParser

namespace RawParser

/-! ## The integer result builder and the integer grammar
(`int_data_add_char`, `int_set_pos`, `create_int_tree`, `int_grammar`) -/

/-- Result payloads used by the integer grammar: the scanning state
(`struct int_data`, with `ps.cur_line == -1` modelled as `ps = none`) and
the final int tree node (`struct int_node_t`, a tree node with a value). -/
inductive CVal where
  | intData (state : Nat) (sign : Int) (value : Int) (ps : Option TextPos)
  | intNode (value : Int) (line : Nat) (column : Nat)
deriving DecidableEq, Repr

/-- Decimal digit test used by the integer state machine. -/
def is_dec_digit (ch : Char) : Bool := '0' ≤ ch && ch ≤ '9'

/-- Octal digit test. -/
def is_oct_digit (ch : Char) : Bool := '0' ≤ ch && ch ≤ '7'

/-- The value of a hexadecimal digit, if it is one (the three range
tests of the hexadecimal branch). -/
def hex_digit_value (ch : Char) : Option Int :=
  if '0' ≤ ch && ch ≤ '9' then some ((ch.toNat : Int) - ('0'.toNat : Int))
  else if 'A' ≤ ch && ch ≤ 'F' then some ((ch.toNat : Int) + (10 - ('A'.toNat : Int)))
  else if 'a' ≤ ch && ch ≤ 'f' then some ((ch.toNat : Int) + (10 - ('a'.toNat : Int)))
  else none

/-- The digit value of a decimal or octal digit, `ch - '0'`. -/
def dec_digit_value (ch : Char) : Int := (ch.toNat : Int) - ('0'.toNat : Int)

/-- One step of the `int_data_add_char` state machine, given the state
label the coroutine re-enters at (the `INT_DATA_WAIT_NEXT_CHAR` labels):
state 0 is the start, 1 follows `-`, 2 follows a leading `0`, 3 follows
`0x`, 4 is inside hexadecimal digits, 5 inside octal digits, 6 inside
decimal digits.  `none` means the callback returns FALSE. -/
def int_data_step (state : Nat) (sign value : Int) (ch : Char) :
    Option (Nat × Int × Int) :=
  match state with
  | 0 =>
      if ch = '-' then some (1, -1, value)
      else if ch = '0' then some (2, sign, value)
      else if is_dec_digit ch then some (6, sign, 10 * value + dec_digit_value ch)
      else none
  | 1 =>
      if ch = '0' then some (2, sign, value)
      else if is_dec_digit ch then some (6, sign, 10 * value + dec_digit_value ch)
      else none
  | 2 =>
      if ch = 'x' then some (3, sign, value)
      else if is_oct_digit ch then some (5, sign, 8 * value + dec_digit_value ch)
      else none
  | 3 =>
      match hex_digit_value ch with
      | some v => some (4, sign, 16 * value + v)
      | none => none
  | 4 =>
      match hex_digit_value ch with
      | some v => some (4, sign, 16 * value + v)
      | none => none
  | 5 =>
      if is_oct_digit ch then some (5, sign, 8 * value + dec_digit_value ch)
      else none
  | 6 =>
      if is_dec_digit ch then some (6, sign, 10 * value + dec_digit_value ch)
      else none
  | _ => none

/-- `int_data_add_char`: allocate a fresh scanning state on the first
character, then run one step of the state machine. -/
def int_data_add_char (prev : Res CVal) (ch : Char) : Option (Res CVal) :=
  let d := match prev with
           | none => some (0, (1 : Int), (0 : Int), (none : Option TextPos))
           | some (.intData st sg v ps) => some (st, sg, v, ps)
           | some _ => none
  match d with
  | none => none
  | some (st, sg, v, ps) =>
      match int_data_step st sg v ch with
      | none => none
      | some (st2, sg2, v2) => some (some (.intData st2 sg2 v2 ps))

/-- `int_set_pos`: record the element's start position on the scanning
state, only the first time (`ps.cur_line == -1`). -/
def int_set_pos (r : Res CVal) (ps : TextPos) : Res CVal :=
  match r with
  | some (.intData st sg v none) => some (.intData st sg v (some ps))
  | other => other

/-- `create_int_tree` (the rule's end function): build an int tree node
with value sign times magnitude at the recorded position.  When the
position was never recorded, the C code copies the `-1` sentinel line and
an uninitialized column; that is modelled as line `2 ^ 32 - 1`, column 0. -/
def create_int_tree (ruleResult : Res CVal) : Option (Res CVal) :=
  match ruleResult with
  | some (.intData _ sg v ps) =>
      match ps with
      | some p => some (some (.intNode (sg * v) p.curLine p.curColumn))
      | none => some (some (.intNode (sg * v) (2 ^ 32 - 1) 0))
  | _ => none

/-- `pass_to_sequence` (the `begin_seq_function` of the grammar): seed
the sequence accumulator with the previous result. -/
def pass_to_sequence (prev : Res CVal) : Res CVal := prev

/-- `use_sequence_result` (the `add_seq_function` of the grammar): the
sequence result replaces the previous result. -/
def use_sequence_result (_prev seq : Res CVal) : Option (Res CVal) := some seq

/-- Helper for building elements the way the grammar macros do. -/
def baseElem (info : ElemInfo CVal) (mods : Mods) (cb : Callbacks CVal) : Element CVal :=
  .mk info mods cb none

/-- The `CHARSET(int_data_add_char) ADD_RANGE ... SEQ(pass_to_sequence,
use_sequence_result)` element shared by the three grouping rules, with
the given digit set and optionality. -/
def int_digit_seq (contains : Char → Bool) (opt : Bool) : Element CVal :=
  baseElem (.charset contains) { sequence := true, optional := opt }
    { addCharF := some int_data_add_char
      beginSeqF := some pass_to_sequence
      addSeqF := some use_sequence_result }

/-- The grammar built by `int_grammar`: one non-terminal `int` with a
single rule `'-'? ( hex | octal | decimal ) 'U'? 'L'? 'L'?` ended by
`create_int_tree`. -/
def int_grammar : Grammar CVal :=
  [(("int" : String),
    { normal := [
        .mk
          [ baseElem (.chr '-') { optional := true }
              { addCharF := some int_data_add_char, setPosF := some int_set_pos }
          , baseElem
              (.grouping [
                .mk
                  [ baseElem (.chr '0') {}
                      { addCharF := some int_data_add_char, setPosF := some int_set_pos }
                  , baseElem (.chr 'x') {} { addCharF := some int_data_add_char }
                  , int_digit_seq (fun ch => (hex_digit_value ch).isSome) false ]
                  none none
              , .mk
                  [ baseElem (.chr '0') {}
                      { addCharF := some int_data_add_char, setPosF := some int_set_pos }
                  , int_digit_seq is_oct_digit true ]
                  none none
              , .mk
                  [ baseElem (.charset (fun ch => '1' ≤ ch && ch ≤ '9')) {}
                      { addCharF := some int_data_add_char, setPosF := some int_set_pos }
                  , int_digit_seq is_dec_digit true ]
                  none none ])
              {} {}
        , baseElem (.chr 'U') { optional := true } {}
        , baseElem (.chr 'L') { optional := true } {}
        , baseElem (.chr 'L') { optional := true } {} ]
          (some create_int_tree) none ]
      recursive := [] })]

/-- The initial parser state over an input, without a cache. -/
def init_state (rho : Type) (input : List Char) : PState rho :=
  { tb := text_buffer_assign_string input, ntStack := [], cacheEnabled := false, cache := [] }

/-- Parse the non-terminal `int` over the whole input (the shape of
`test_parse_int`): run `parse_nt`, require the buffer to be at the end,
and extract the int node's value. -/
def parse_int_value (input : List Char) : Option Int :=
  match parse_nt 100 int_grammar "int" (init_state CVal input) with
  | some (.ok (some (.intNode v _ _)) s1) =>
      if text_buffer_end s1.tb then some v else none
  | _ => none

end RawParser

namespace RawParser

/-! ## Claim C5 and C10: the text buffer cursor -/

/-- C5: for a buffer whose cursor is inside the input, advancing by one
byte increases the offset by one and updates line and column as follows:
on a tab the column grows by `tab_size - (column - 1) % tab_size` and the
line is unchanged; on a newline the line grows by one and the column
resets to 1; on any other byte the column grows by one. -/
theorem text_buffer_next_updates_position (tb : TextBuffer)
    (h : tb.pos.pos < tb.bufferLen) :
    (text_buffer_cur tb = '\t' →
      text_buffer_next tb =
        { tb with pos :=
            { pos := tb.pos.pos + 1, curLine := tb.pos.curLine
              curColumn := tb.pos.curColumn +
                (tb.tabSize - (tb.pos.curColumn - 1) % tb.tabSize) } }) ∧
    (text_buffer_cur tb = '\n' →
      text_buffer_next tb =
        { tb with pos :=
            { pos := tb.pos.pos + 1, curLine := tb.pos.curLine + 1, curColumn := 1 } }) ∧
    (text_buffer_cur tb ≠ '\t' → text_buffer_cur tb ≠ '\n' →
      text_buffer_next tb =
        { tb with pos :=
            { pos := tb.pos.pos + 1, curLine := tb.pos.curLine
              curColumn := tb.pos.curColumn + 1 } }) := by
  refine ⟨fun ht => ?_, fun hn => ?_, fun ht hn => ?_⟩ <;>
    simp only [text_buffer_next, if_pos h, tb_next_pos]
  · rw [if_pos ht]
  · rw [if_neg (by rw [hn]; decide), if_pos hn]
  · rw [if_neg ht, if_neg hn]

/-- Witness for C5: advancing over a tab at offset 0 of `"\t"` moves to
offset 1, line 1, column 5 (tab size 4). -/
theorem text_buffer_next_updates_position_witness :
    text_buffer_next (text_buffer_assign_string ['\t']) =
      { buffer := ['\t'], bufferLen := 1
        pos := { pos := 1, curLine := 1, curColumn := 5 }, tabSize := 4 } := by
  have h := (text_buffer_next_updates_position
    (text_buffer_assign_string ['\t']) (by decide)).1 (by decide)
  exact h.trans (by decide)

/-- C10: with the cursor at or past the end of the input
(`text_buffer_end`), `text_buffer_next` leaves the buffer unchanged. -/
theorem text_buffer_next_at_end (tb : TextBuffer)
    (h : text_buffer_end tb = true) : text_buffer_next tb = tb := by
  have h' : ¬ tb.pos.pos < tb.bufferLen := by
    simpa [text_buffer_end, Nat.not_lt] using h
  simp [text_buffer_next, h']

/-- Witness for C10: stepping the empty buffer changes nothing. -/
theorem text_buffer_next_at_end_witness :
    text_buffer_next (text_buffer_assign_string []) = text_buffer_assign_string [] :=
  text_buffer_next_at_end (text_buffer_assign_string []) (by decide)

/-! ## Claim C9: the reference integer grammar -/

/-- C9: under the reference integer grammar and integer builder, parsing
non-terminal `int` over each whole input yields an int node whose value
is the sign times the accumulated magnitude: `"0"` gives 0, `"-23"`
gives -23, `"077"` gives 63, `"0xAbc"` gives 2748, `"1234L"` gives
1234. -/
theorem int_grammar_reference_values :
    parse_int_value ['0'] = some 0 ∧
    parse_int_value ['-', '2', '3'] = some (-23) ∧
    parse_int_value ['0', '7', '7'] = some 63 ∧
    parse_int_value ['0', 'x', 'A', 'b', 'c'] = some 2748 ∧
    parse_int_value ['1', '2', '3', '4', 'L'] = some 1234 := by
  refine ⟨?_, ?_, ?_, ?_, ?_⟩ <;> decide

end RawParser

namespace RawParser

/-! ## The expectation tracker (`expect_element`, claim C7)

The tracker records, at the deepest failing position, pairs of the
current call-stack frame and the failing element; both are compared by
pointer equality in C and are therefore modelled as opaque identifiers. -/

/-- The bound `MAX_EXP_SYM` on the expectation set. -/
def MAX_EXP_SYM : Nat := 200

/-- The tracker state: the globals `highest_pos`, `expected`,
`nr_expected`. -/
structure ExpectState where
  highest : TextPos
  expected : List (Nat × Nat)
deriving DecidableEq, Repr

/-- `expect_element`, called when a terminal element fails at `cursor`
with the given call-stack frame: ignore below the highest position, reset
the set above it, then insert the pair unless an identical pair is
already present or the set is full. -/
def expect_element (cursor : TextPos) (ntStack elem : Nat) (st : ExpectState) : ExpectState :=
  if cursor.pos < st.highest.pos then st
  else
    let st1 := if st.highest.pos < cursor.pos then
                 { highest := cursor, expected := [] }
               else st
    if (ntStack, elem) ∈ st1.expected then st1
    else if st1.expected.length < MAX_EXP_SYM then
      { st1 with expected := st1.expected.concat (ntStack, elem) }
    else st1

/-- A full expectation set: 200 distinct pairs at the highest position. -/
def full_expect_state : ExpectState :=
  { highest := { pos := 5, curLine := 1, curColumn := 6 }
    expected := (List.range MAX_EXP_SYM).map (fun i => (i, i)) }

/-! ## The `prev_child` reference counting (claim C6)

Chain nodes (`struct prev_child_t`) live in a small heap keyed by node
identity; each node carries its reference count, the node its `prev`
field points to, the payload its `child` result holds, and whether it has
been freed.  The count is the C `unsigned long`, so decrementing wraps
modulo `2 ^ 64`. -/

/-- A `prev_child_t` node as seen by the reference-counting runtime. -/
structure PCNode where
  cnt : Nat
  prev : Option Nat
  child : Option Nat
  freed : Bool
deriving DecidableEq, Repr

/-- The heap of chain nodes. -/
abbrev PCHeap := List (Nat × PCNode)

/-- Read a node. -/
def pc_get (h : PCHeap) (id : Nat) : Option PCNode :=
  (h.find? (fun kv => kv.1 = id)).map (fun kv => kv.2)

/-- Write a node. -/
def pc_set (h : PCHeap) (id : Nat) (nd : PCNode) : PCHeap :=
  (id, nd) :: h.filter (fun kv => ¬ kv.1 = id)

/-- `ref_counted_base_inc` on a chain node. -/
def ref_counted_base_inc_pc (h : PCHeap) (id : Nat) : PCHeap :=
  match pc_get h id with
  | none => h
  | some nd => pc_set h id { nd with cnt := nd.cnt + 1 }

mutual

/-- `ref_counted_base_dec` on a `prev_child` payload: decrement the
unsigned count (wrapping modulo `2 ^ 64`) and, when it reaches zero, run
the node's release function `release_prev_child`. -/
def ref_counted_base_dec_pc : Nat → PCHeap → Nat → Option PCHeap
  | 0, _, _ => none
  | f + 1, h, id =>
      match pc_get h id with
      | none => some h
      | some nd =>
          let c := (nd.cnt + (2 ^ 64 - 1)) % 2 ^ 64
          let h1 := pc_set h id { nd with cnt := c }
          if c = 0 then release_prev_child f h1 id else some h1

/-- `release_prev_child` exactly as the source has it: release the
`child` result, then -- because the code reads
`if (prev_child != NULL) ref_counted_base_dec(prev_child);` with
`prev_child` the node being released, not `prev_child->prev` -- decrement
the count of the node itself (the guard is always true), and free the
node.  The predecessor node is never touched. -/
def release_prev_child : Nat → PCHeap → Nat → Option PCHeap
  | 0, _, _ => none
  | f + 1, h, id =>
      match pc_get h id with
      | none => some h
      | some nd =>
          let step1 : Option PCHeap :=
            match nd.child with
            | some cid => ref_counted_base_dec_pc f h cid
            | none => some h
          match step1 with
          | none => none
          | some h1 =>
              match ref_counted_base_dec_pc f h1 id with
              | none => none
              | some h2 =>
                  match pc_get h2 id with
                  | none => some h2
                  | some nd2 => some (pc_set h2 id { nd2 with freed := true })

end

/-- The failing input for C6: node 1 is a chain node whose `prev` field
holds the only (incremented-for) reference to node 0, and node 1's own
count is about to drop to zero. -/
def pc_heap_failing : PCHeap :=
  [ (0, { cnt := 1, prev := none, child := none, freed := false })
  , (1, { cnt := 1, prev := some 0, child := none, freed := false }) ]

end RawParser

namespace RawParser

/-! ## Claim C7: expectation tracker theorems -/

set_option maxRecDepth 8000 in
/-- Counterexample for C7: with the expectation set already holding
`MAX_EXP_SYM = 200` pairs at the highest position, a fresh pair at that
position is NOT inserted -- `expect_element` leaves the state unchanged,
while the claim says the pair is inserted whenever no identical pair is
present. -/
theorem expect_element_cap_counterexample :
    expect_element { pos := 5, curLine := 1, curColumn := 6 } 777 888 full_expect_state =
      full_expect_state ∧
    ¬ (777, 888) ∈ full_expect_state.expected ∧
    full_expect_state.expected.length = 200 := by
  refine ⟨by decide, by decide, by decide⟩

/-- C7 (amended): when a terminal element fails, a cursor below the
highest recorded position changes nothing; a cursor above it makes the
highest position the cursor and the set exactly the new pair; at the
highest position the pair is appended unless an identical pair is
present or the set already holds `MAX_EXP_SYM` pairs.  Consequently the
highest position never decreases and the set stays duplicate-free. -/
theorem expect_element_behavior (cursor : TextPos) (stk el : Nat) (st : ExpectState) :
    (cursor.pos < st.highest.pos → expect_element cursor stk el st = st) ∧
    (st.highest.pos < cursor.pos →
      expect_element cursor stk el st = { highest := cursor, expected := [(stk, el)] }) ∧
    (cursor.pos = st.highest.pos →
      ((stk, el) ∈ st.expected → expect_element cursor stk el st = st) ∧
      ((stk, el) ∉ st.expected → st.expected.length < MAX_EXP_SYM →
        expect_element cursor stk el st =
          { st with expected := st.expected.concat (stk, el) }) ∧
      ((stk, el) ∉ st.expected → MAX_EXP_SYM ≤ st.expected.length →
        expect_element cursor stk el st = st)) ∧
    st.highest.pos ≤ (expect_element cursor stk el st).highest.pos ∧
    (st.expected.Nodup → (expect_element cursor stk el st).expected.Nodup) := by
  have hlt_case : cursor.pos < st.highest.pos → expect_element cursor stk el st = st := by
    intro h; simp [expect_element, h]
  have hgt_case : st.highest.pos < cursor.pos →
      expect_element cursor stk el st = { highest := cursor, expected := [(stk, el)] } := by
    intro h
    simp [expect_element, Nat.lt_asymm h, h, MAX_EXP_SYM]
  have heq_mem : cursor.pos = st.highest.pos → (stk, el) ∈ st.expected →
      expect_element cursor stk el st = st := by
    intro h hmem
    simp [expect_element, h, hmem]
  have heq_ins : cursor.pos = st.highest.pos → (stk, el) ∉ st.expected →
      st.expected.length < MAX_EXP_SYM →
      expect_element cursor stk el st = { st with expected := st.expected.concat (stk, el) } := by
    intro h hmem hlen
    simp [expect_element, h, hmem, hlen]
  have heq_full : cursor.pos = st.highest.pos → (stk, el) ∉ st.expected →
      MAX_EXP_SYM ≤ st.expected.length →
      expect_element cursor stk el st = st := by
    intro h hmem hlen
    simp [expect_element, h, hmem, Nat.not_lt.mpr hlen]
  refine ⟨hlt_case, hgt_case, fun h => ⟨heq_mem h, heq_ins h, heq_full h⟩, ?_, ?_⟩
  · rcases Nat.lt_trichotomy cursor.pos st.highest.pos with h | h | h
    · rw [hlt_case h]
    · rcases Classical.em ((stk, el) ∈ st.expected) with hm | hm
      · rw [heq_mem h hm]
      · rcases Nat.lt_or_ge st.expected.length MAX_EXP_SYM with hl | hl
        · rw [heq_ins h hm hl]
        · rw [heq_full h hm hl]
    · rw [hgt_case h]
      exact Nat.le_of_lt h
  · intro hnd
    rcases Nat.lt_trichotomy cursor.pos st.highest.pos with h | h | h
    · rw [hlt_case h]; exact hnd
    · rcases Classical.em ((stk, el) ∈ st.expected) with hm | hm
      · rw [heq_mem h hm]; exact hnd
      · rcases Nat.lt_or_ge st.expected.length MAX_EXP_SYM with hl | hl
        · rw [heq_ins h hm hl]
          exact List.Nodup.concat hm hnd
        · rw [heq_full h hm hl]; exact hnd
    · rw [hgt_case h]
      simp

/-- Witness for C7 (amended): at a cursor beyond the old highest
position the tracker resets to exactly the new pair. -/
theorem expect_element_behavior_witness :
    expect_element { pos := 3, curLine := 1, curColumn := 4 } 1 2
        { highest := { pos := 2, curLine := 1, curColumn := 3 }, expected := [(9, 9)] } =
      { highest := { pos := 3, curLine := 1, curColumn := 4 }, expected := [(1, 2)] } :=
  (expect_element_behavior { pos := 3, curLine := 1, curColumn := 4 } 1 2
    { highest := { pos := 2, curLine := 1, curColumn := 3 }, expected := [(9, 9)] }).2.1
    (by decide)

end RawParser

namespace RawParser

/-! ## Claim C6: the `release_prev_child` reference-count slip -/

/-- Evidence for C6 being violated by the code: in `pc_heap_failing`,
node 1's `prev` field holds the reference to node 0 that `add_child`
incremented (`ref_counted_base_inc_pc`) when the chain was built, and
node 1 itself is referenced once.  Dropping that last reference to
node 1 releases it, but `release_prev_child` decrements node 1's own
count (taking it from zero to `2 ^ 64 - 1`, the C unsigned wrap-around)
instead of the predecessor's: node 0 keeps count 1 and is never freed,
so the increment performed for node 1's `prev` field is never matched by
a decrement. -/
theorem release_prev_child_leaves_predecessor :
    (ref_counted_base_dec_pc 10 pc_heap_failing 1).map (fun h => (pc_get h 0, pc_get h 1)) =
      some (some { cnt := 1, prev := none, child := none, freed := false },
            some { cnt := 2 ^ 64 - 1, prev := some 0, child := none, freed := true }) := by
  decide

end RawParser

namespace RawParser

/-! ## Claim C8: user terminal elements -/

/-- Stepping inside the buffer always increments the byte offset. -/
theorem tb_next_pos_pos (c : Char) (tab : Nat) (p : TextPos) :
    (tb_next_pos c tab p).pos = p.pos + 1 := by
  unfold tb_next_pos
  split
  · rfl
  · split <;> rfl

/-- `text_buffer_next` keeps the buffer contents, length and tab size. -/
theorem text_buffer_next_frame (tb : TextBuffer) :
    (text_buffer_next tb).buffer = tb.buffer ∧
    (text_buffer_next tb).bufferLen = tb.bufferLen ∧
    (text_buffer_next tb).tabSize = tb.tabSize := by
  unfold text_buffer_next; split <;> exact ⟨rfl, rfl, rfl⟩

/-- Advancing `n` steps from a position with `n` bytes available moves
the offset forward by exactly `n`. -/
theorem text_buffer_advance_pos (n : Nat) :
    ∀ tb : TextBuffer, tb.pos.pos + n ≤ tb.bufferLen →
      (text_buffer_advance n tb).pos.pos = tb.pos.pos + n := by
  induction n with
  | zero => intro tb _; rfl
  | succ n ih =>
      intro tb h
      have hlt : tb.pos.pos < tb.bufferLen := by omega
      have hnext : (text_buffer_next tb).pos.pos = tb.pos.pos + 1 := by
        unfold text_buffer_next
        rw [if_pos hlt, tb_next_pos_pos]
      have hlen : (text_buffer_next tb).bufferLen = tb.bufferLen :=
        (text_buffer_next_frame tb).2.1
      have := ih (text_buffer_next tb) (by omega)
      show (text_buffer_advance n (text_buffer_next tb)).pos.pos = tb.pos.pos + (n + 1)
      omega

/-- C8: for a user-terminal element, `parse_element` invokes the client
function on the input at the cursor; it fails (leaving the state
unchanged) exactly when the function consumed nothing, and otherwise
succeeds with the buffer advanced to the returned position, i.e. the
cursor's byte offset grows by exactly the number of consumed bytes. -/
theorem parse_element_user_terminal {rho : Type} (f : Nat) (g : Grammar rho)
    (mods : Mods) (cb : Callbacks rho) (chain : Option (List (Element rho)))
    (fn : List Char → Nat × Res rho) (prev : Res rho) (s : PState rho)
    (n : Nat) (r : Res rho) (e : Element rho)
    (he : e = .mk (.term fn) mods cb chain)
    (hfn : fn (s.tb.buffer.drop s.tb.pos.pos) = (n, r))
    (hbound : s.tb.pos.pos + n ≤ s.tb.bufferLen) :
    ((parse_element (f + 1) g e prev s = some (.fail s)) ↔ n = 0) ∧
    (0 < n →
      parse_element (f + 1) g e prev s =
        some (.ok (apply_set_pos e r s.tb.pos) { s with tb := text_buffer_advance n s.tb }) ∧
      (text_buffer_advance n s.tb).pos.pos = s.tb.pos.pos + n) := by
  subst he
  have hred : parse_element (f + 1) g (Element.mk (.term fn) mods cb chain) prev s =
      (if n = 0 then some (.fail s)
       else if s.tb.pos.pos + n ≤ s.tb.bufferLen then
         some (.ok (apply_set_pos (Element.mk (.term fn) mods cb chain) r s.tb.pos)
           { s with tb := text_buffer_advance n s.tb })
       else none) := by
    simp only [parse_element, Element.info, hfn]
  by_cases hn : n = 0
  · subst hn
    rw [hred]
    simp
  · rw [hred, if_neg hn, if_pos hbound]
    refine ⟨?_, fun _ => ⟨rfl, text_buffer_advance_pos n s.tb hbound⟩⟩
    constructor
    · intro h
      exact absurd (Option.some.inj h) (by simp)
    · intro h; exact absurd h hn

/-- A concrete user terminal function: consume two bytes, write 42. -/
def term_fn_ex : List Char → Nat × Res Nat := fun _ => (2, some 42)

/-- A user-terminal element carrying `term_fn_ex`, with no modifiers and
no callbacks. -/
def term_elem_ex : Element Nat := .mk (.term term_fn_ex) {} {} none

/-- A parser state over the input `"abc"`. -/
def term_state_ex : PState Nat := init_state Nat ['a', 'b', 'c']

/-- Witness for C8: the concrete terminal consumes two of the three
input bytes, the element succeeds, and the cursor lands at offset 2. -/
theorem parse_element_user_terminal_witness :
    parse_element 1 [] term_elem_ex none term_state_ex =
      some (.ok (apply_set_pos term_elem_ex (some 42) term_state_ex.tb.pos)
        { term_state_ex with tb := text_buffer_advance 2 term_state_ex.tb }) ∧
    (text_buffer_advance 2 term_state_ex.tb).pos.pos = term_state_ex.tb.pos.pos + 2 :=
  (parse_element_user_terminal 0 [] {} {} none term_fn_ex none term_state_ex 2 (some 42)
    term_elem_ex rfl rfl (by decide)).2 (by decide)

end RawParser

namespace RawParser

/-! ## Claim C2: defaults for absent combining callbacks -/

/-- Extract the result of a successful outcome. -/
def pout_res {rho : Type} : Option (POut rho) → Option (Res rho)
  | some (.ok r _) => some r
  | _ => none

/-- A grouping with one inner rule matching `'x'` and producing 99
through its `add_char_function`; the grouping element itself has no
`add_function`. -/
def group_elem_ex : Element Nat :=
  .mk (.grouping [.mk [.mk (.chr 'x') {}
        { addCharF := some (fun _ _ => some (some 99)) } none] none none])
    {} {} none

/-- A parser state over the input `"x"`. -/
def group_state_ex : PState Nat := init_state Nat ['x']

/-- Counterexample for C2: a grouping element with no `add_function`
parses successfully but outputs the grouping's own rule result (99), not
the previous result passed in (7) -- the pass-through default does not
apply to grouping elements. -/
theorem grouping_absent_add_function_counterexample :
    pout_res (parse_element 10 [] group_elem_ex (some 7) group_state_ex) = some (some 99) ∧
    (some 99 : Res Nat) ≠ some 7 := by
  exact ⟨by decide, by decide⟩

/-- C2 (amended): when `set_pos` is absent, a successful `parse_element`
with an absent combining callback passes the previous result through
unchanged for non-terminal, character, character-set and end elements;
for a grouping element with absent `add_function` the output is instead
the result produced by the grouping's own rule list (`grouping_try`). -/
theorem parse_element_defaults {rho : Type} (f : Nat) (g : Grammar rho) (e : Element rho)
    (prev : Res rho) (s : PState rho) (r : Res rho) (s' : PState rho)
    (hset : e.cb.setPosF = none)
    (hp : parse_element (f + 1) g e prev s = some (.ok r s')) :
    ((∃ name, e.info = .nt name) → e.cb.addF = none → r = prev) ∧
    ((∃ c, e.info = .chr c) → e.cb.addCharF = none → r = prev) ∧
    ((∃ cs, e.info = .charset cs) → e.cb.addCharF = none → r = prev) ∧
    (e.info = .endOfText → r = prev) ∧
    (∀ rules, e.info = .grouping rules → e.cb.addF = none →
      grouping_try f g rules prev s = some (.ok r s')) := by
  obtain ⟨info, mods, cb, chain⟩ := e
  simp only [Element.info, Element.cb] at hset ⊢
  cases info with
  | nt name =>
      refine ⟨fun _ haddF => ?_, ?_, ?_, ?_, ?_⟩
      · simp only [parse_element, Element.info, Element.cb, haddF] at hp
        split at hp
        · exact absurd hp (by simp)
        · exact absurd hp (by simp)
        · split at hp
          · exact absurd hp (by simp)
          · rw [apply_set_pos] at hp
            simp only [Element.cb, hset] at hp
            obtain ⟨hr, _⟩ := by simpa using hp
            exact hr.symm
      · rintro ⟨c, hc⟩; simp at hc
      · rintro ⟨cs, hc⟩; simp at hc
      · intro hc; simp at hc
      · intro rules hc; simp at hc
  | grouping rules0 =>
      refine ⟨?_, ?_, ?_, ?_, fun rules hrules haddF => ?_⟩
      · rintro ⟨n, hc⟩; simp at hc
      · rintro ⟨c, hc⟩; simp at hc
      · rintro ⟨cs, hc⟩; simp at hc
      · intro hc; simp at hc
      · obtain rfl : rules0 = rules := by simpa using hrules
        simp only [parse_element, Element.info, Element.cb, haddF] at hp
        split at hp
        · exact absurd hp (by simp)
        · exact absurd hp (by simp)
        · rename_i ruleRes s1 heq
          rw [apply_set_pos] at hp
          simp only [Element.cb, hset] at hp
          obtain ⟨hr, hs⟩ := by simpa using hp
          rw [heq, hr, hs]
  | chr c0 =>
      refine ⟨?_, fun _ hacf => ?_, ?_, ?_, ?_⟩
      · rintro ⟨n, hc⟩; simp at hc
      · simp only [parse_element, Element.info, Element.cb, hacf] at hp
        split at hp
        · rw [apply_set_pos] at hp
          simp only [Element.cb, hset] at hp
          obtain ⟨hr, _⟩ := by simpa using hp
          exact hr.symm
        · exact absurd hp (by simp)
      · rintro ⟨cs, hc⟩; simp at hc
      · intro hc; simp at hc
      · intro rules hc; simp at hc
  | charset cs0 =>
      refine ⟨?_, ?_, fun _ hacf => ?_, ?_, ?_⟩
      · rintro ⟨n, hc⟩; simp at hc
      · rintro ⟨c, hc⟩; simp at hc
      · simp only [parse_element, Element.info, Element.cb, hacf] at hp
        split at hp
        · rw [apply_set_pos] at hp
          simp only [Element.cb, hset] at hp
          obtain ⟨hr, _⟩ := by simpa using hp
          exact hr.symm
        · exact absurd hp (by simp)
      · intro hc; simp at hc
      · intro rules hc; simp at hc
  | endOfText =>
      refine ⟨?_, ?_, ?_, fun _ => ?_, ?_⟩
      · rintro ⟨n, hc⟩; simp at hc
      · rintro ⟨c, hc⟩; simp at hc
      · rintro ⟨cs, hc⟩; simp at hc
      · simp only [parse_element, Element.info, Element.cb] at hp
        split at hp
        · rw [apply_set_pos] at hp
          simp only [Element.cb, hset] at hp
          obtain ⟨hr, _⟩ := by simpa using hp
          exact hr.symm
        · exact absurd hp (by simp)
      · intro rules hc; simp at hc
  | term fn =>
      refine ⟨?_, ?_, ?_, ?_, ?_⟩
      · rintro ⟨n, hc⟩; simp at hc
      · rintro ⟨c, hc⟩; simp at hc
      · rintro ⟨cs, hc⟩; simp at hc
      · intro hc; simp at hc
      · intro rules hc; simp at hc

/-- A character element with no callbacks at all. -/
def chr_elem_ex : Element Nat := .mk (.chr 'a') {} {} none

/-- A parser state over the input `"a"`. -/
def chr_state_ex : PState Nat := init_state Nat ['a']

/-- Witness for C2 (amended): parsing the plain `'a'` element over
`"a"` succeeds and passes the previous result 5 through unchanged. -/
theorem parse_element_defaults_witness : (some 5 : Res Nat) = some 5 :=
  (parse_element_defaults 0 [] chr_elem_ex (some 5) chr_state_ex (some 5)
      { chr_state_ex with tb := text_buffer_next chr_state_ex.tb } rfl (by decide)).2.1
    ⟨'a', rfl⟩ rfl

end RawParser

namespace RawParser

/-! ## State invariants for the rollback and cache proofs

`StateValid` says the buffer position (and every memoized success
position) carries the line/column the buffer's own arithmetic assigns to
its offset; every state reachable from `text_buffer_assign_string`
satisfies it.  `StepOK` collects what every parsing function preserves:
the buffer contents, the cache switch, and validity.  `Stable` says
cache items already marked `fail` keep that mark. -/

/-- All valid states of a parse: the cursor is consistent with the
buffer, and so is the continuation position of every memoized success. -/
def StateValid {rho : Type} (s : PState rho) : Prop :=
  PosValid s.tb s.tb.pos ∧
  ∀ kv ∈ s.cache, kv.2.success = .success → PosValid s.tb kv.2.nextPos

/-- The buffer contents, buffer length, tab size and the cache switch,
which no parsing function ever changes. -/
def Frame {rho : Type} (s s' : PState rho) : Prop :=
  s'.tb.buffer = s.tb.buffer ∧ s'.tb.bufferLen = s.tb.bufferLen ∧
  s'.tb.tabSize = s.tb.tabSize ∧ s'.cacheEnabled = s.cacheEnabled

/-- Frame plus validity preservation of one parsing step. -/
def StepOK {rho : Type} (s s' : PState rho) : Prop :=
  Frame s s' ∧ (StateValid s → StateValid s')

/-- A cache item already marked `fail`. -/
def flag_fail {rho : Type} (s : PState rho) (p : Nat) (n : String) : Prop :=
  (cache_get s p n).success = .fail

/-- `fail` marks survive the step. -/
def Stable {rho : Type} (s s' : PState rho) : Prop :=
  ∀ p n, flag_fail s p n → flag_fail s' p n

theorem frame_refl {rho : Type} (s : PState rho) : Frame s s := ⟨rfl, rfl, rfl, rfl⟩

theorem frame_trans {rho : Type} {a b c : PState rho} (h1 : Frame a b) (h2 : Frame b c) :
    Frame a c :=
  ⟨h2.1.trans h1.1, h2.2.1.trans h1.2.1, h2.2.2.1.trans h1.2.2.1, h2.2.2.2.trans h1.2.2.2⟩

theorem stepok_refl {rho : Type} (s : PState rho) : StepOK s s := ⟨frame_refl s, id⟩

theorem stepok_trans {rho : Type} {a b c : PState rho} (h1 : StepOK a b) (h2 : StepOK b c) :
    StepOK a c :=
  ⟨frame_trans h1.1 h2.1, fun hv => h2.2 (h1.2 hv)⟩

theorem stable_refl {rho : Type} (s : PState rho) : Stable s s := fun _ _ h => h

theorem stable_trans {rho : Type} {a b c : PState rho} (h1 : Stable a b) (h2 : Stable b c) :
    Stable a c := fun p n h => h2 p n (h1 p n h)

/-- Two valid positions with the same offset are the same triple. -/
theorem posvalid_funeq {tb : TextBuffer} {p q : TextPos} (hp : PosValid tb p)
    (hq : PosValid tb q) (h : p.pos = q.pos) : p = q := by
  unfold PosValid at hp hq
  rw [hp, hq, h]

/-- `PosValid` only reads the buffer, its length and the tab size. -/
theorem posvalid_congr {a b : TextBuffer} (h1 : b.buffer = a.buffer)
    (h2 : b.bufferLen = a.bufferLen) (h3 : b.tabSize = a.tabSize) (p : TextPos) :
    PosValid a p ↔ PosValid b p := by
  unfold PosValid; rw [h1, h2, h3]

/-- Stepping the buffer keeps the cursor valid. -/
theorem posvalid_next {tb : TextBuffer} (h : PosValid tb tb.pos) :
    PosValid tb (text_buffer_next tb).pos := by
  unfold text_buffer_next
  split
  · rename_i hlt
    show tb_next_pos (text_buffer_cur tb) tb.tabSize tb.pos =
      posAt tb.buffer tb.bufferLen tb.tabSize (tb_next_pos (text_buffer_cur tb) tb.tabSize tb.pos).pos
    rw [tb_next_pos_pos]
    show _ = posAt tb.buffer tb.bufferLen tb.tabSize (tb.pos.pos + 1)
    rw [posAt]
    rw [← h]
    rw [if_pos hlt]
    rfl
  · exact h

/-- Restoring a valid position lands exactly on it. -/
theorem set_pos_valid_eq {tb : TextBuffer} {sp : TextPos} (hv : PosValid tb tb.pos)
    (hsp : PosValid tb sp) : (text_buffer_set_pos tb sp).pos = sp := by
  unfold text_buffer_set_pos
  split
  · rename_i h; exact posvalid_funeq hv hsp h
  · rfl

end RawParser

namespace RawParser

/-! ## Step lemmas for the primitive state operations -/

theorem text_buffer_set_pos_frame (tb : TextBuffer) (p : TextPos) :
    (text_buffer_set_pos tb p).buffer = tb.buffer ∧
    (text_buffer_set_pos tb p).bufferLen = tb.bufferLen ∧
    (text_buffer_set_pos tb p).tabSize = tb.tabSize := by
  unfold text_buffer_set_pos; split <;> exact ⟨rfl, rfl, rfl⟩

theorem stepok_push {rho : Type} (s : PState rho) (name : String) :
    StepOK s (nt_stack_push name s) := ⟨⟨rfl, rfl, rfl, rfl⟩, fun hv => hv⟩

theorem stable_push {rho : Type} (s : PState rho) (name : String) :
    Stable s (nt_stack_push name s) := fun _ _ h => h

theorem stepok_pop {rho : Type} (s : PState rho) : StepOK s (nt_stack_pop s) :=
  ⟨⟨rfl, rfl, rfl, rfl⟩, fun hv => hv⟩

theorem stable_pop {rho : Type} (s : PState rho) : Stable s (nt_stack_pop s) :=
  fun _ _ h => h

/-- Restoring a position: frame, cache, validity. -/
theorem stepok_set_pos {rho : Type} (s : PState rho) (sp : TextPos)
    (hsp : StateValid s → PosValid s.tb sp) : StepOK s (set_pos_state sp s) := by
  obtain ⟨h1, h2, h3⟩ := text_buffer_set_pos_frame s.tb sp
  refine ⟨⟨h1, h2, h3, rfl⟩, fun hv => ?_⟩
  obtain ⟨hpos, hcache⟩ := hv
  constructor
  · show PosValid (text_buffer_set_pos s.tb sp) (text_buffer_set_pos s.tb sp).pos
    rw [← posvalid_congr h1 h2 h3]
    show PosValid s.tb (text_buffer_set_pos s.tb sp).pos
    unfold text_buffer_set_pos
    split
    · exact hpos
    · exact hsp ⟨hpos, hcache⟩
  · intro kv hkv hsucc
    show PosValid (text_buffer_set_pos s.tb sp) kv.2.nextPos
    rw [← posvalid_congr h1 h2 h3]
    exact hcache kv hkv hsucc

theorem stable_set_pos {rho : Type} (s : PState rho) (sp : TextPos) :
    Stable s (set_pos_state sp s) := fun _ _ h => h

/-- The restored cursor of a valid state is the (valid) target. -/
theorem set_pos_state_pos {rho : Type} (s : PState rho) (sp : TextPos)
    (hv : StateValid s) (hsp : PosValid s.tb sp) : (set_pos_state sp s).tb.pos = sp :=
  set_pos_valid_eq hv.1 hsp

/-- Stepping the buffer inside the state: frame, cache, validity. -/
theorem stepok_tb_next {rho : Type} (s : PState rho) :
    StepOK s { s with tb := text_buffer_next s.tb } := by
  obtain ⟨h1, h2, h3⟩ := text_buffer_next_frame s.tb
  refine ⟨⟨h1, h2, h3, rfl⟩, fun hv => ?_⟩
  obtain ⟨hpos, hcache⟩ := hv
  constructor
  · rw [← posvalid_congr h1 h2 h3]
    exact posvalid_next hpos
  · intro kv hkv hsucc
    rw [← posvalid_congr h1 h2 h3]
    exact hcache kv hkv hsucc

theorem stable_tb_next {rho : Type} (s : PState rho) :
    Stable s { s with tb := text_buffer_next s.tb } := fun _ _ h => h

/-- Advancing the buffer `n` steps inside the state. -/
theorem stepok_tb_advance {rho : Type} (n : Nat) (s : PState rho) :
    StepOK s { s with tb := text_buffer_advance n s.tb } := by
  induction n generalizing s with
  | zero => exact stepok_refl s
  | succ n ih =>
      have h1 := stepok_tb_next s
      have h2 := ih { s with tb := text_buffer_next s.tb }
      exact stepok_trans h1 h2

theorem stable_tb_advance {rho : Type} (n : Nat) (s : PState rho) :
    Stable s { s with tb := text_buffer_advance n s.tb } := fun _ _ h => h

/-- Cache lookup after a store at the same key. -/
theorem cache_get_put_eq {rho : Type} (s : PState rho) (p : Nat) (n : String)
    (it : CacheItem rho) : cache_get (cache_put s p n it) p n = it := by
  simp [cache_get, cache_put, List.find?]

/-- Cache lookup after a store at a different key. -/
theorem cache_get_put_ne {rho : Type} (s : PState rho) (p p' : Nat) (n n' : String)
    (it : CacheItem rho) (h : ¬ (p' = p ∧ n' = n)) :
    cache_get (cache_put s p n it) p' n' = cache_get s p' n' := by
  have hne : ((p, n) : Nat × String) ≠ (p', n') := by
    intro hcontra
    exact h ⟨congrArg Prod.fst hcontra |>.symm, congrArg Prod.snd hcontra |>.symm⟩
  simp [cache_get, cache_put, List.find?, hne]

/-- Storing an item whose success mark comes with a valid continuation
position preserves the state invariants. -/
theorem stepok_cache_put {rho : Type} (s : PState rho) (p : Nat) (n : String)
    (it : CacheItem rho)
    (h : StateValid s → it.success = .success → PosValid s.tb it.nextPos) :
    StepOK s (cache_put s p n it) := by
  refine ⟨⟨rfl, rfl, rfl, rfl⟩, fun hv => ⟨hv.1, ?_⟩⟩
  intro kv hkv hsucc
  rcases List.mem_cons.mp hkv with hkv | hkv
  · subst hkv
    exact h hv hsucc
  · exact hv.2 kv hkv hsucc

/-- Storing a `fail` item preserves all `fail` marks. -/
theorem stable_cache_put_fail {rho : Type} (s : PState rho) (p : Nat) (n : String)
    (it : CacheItem rho) (h : it.success = .fail) : Stable s (cache_put s p n it) := by
  intro p' n' hf
  by_cases hk : p' = p ∧ n' = n
  · obtain ⟨rfl, rfl⟩ := hk
    unfold flag_fail
    rw [cache_get_put_eq]
    exact h
  · unfold flag_fail
    rw [cache_get_put_ne s p p' n n' it hk]
    exact hf

end RawParser

namespace RawParser

/-- Validity of positions transports along the frame. -/
theorem frame_posvalid {rho : Type} {s s1 : PState rho} (h : Frame s s1) (p : TextPos) :
    PosValid s.tb p ↔ PosValid s1.tb p :=
  posvalid_congr h.1 h.2.1 h.2.2.1 p

/-- `set_pos_state` keeps the frame. -/
theorem frame_set_pos {rho : Type} (s : PState rho) (sp : TextPos) :
    Frame s (set_pos_state sp s) := by
  obtain ⟨h1, h2, h3⟩ := text_buffer_set_pos_frame s.tb sp
  exact ⟨h1, h2, h3, rfl⟩

/-- A memoized success in a valid state continues at a valid position. -/
theorem valid_cache_item {rho : Type} (s : PState rho) (p : Nat) (n : String)
    (hv : StateValid s) (h : (cache_get s p n).success = .success) :
    PosValid s.tb (cache_get s p n).nextPos := by
  unfold cache_get at h ⊢
  cases hfind : s.cache.find? (fun kv => kv.1 = (p, n)) with
  | none =>
      rw [hfind] at h
      exact absurd h (by simp [CacheItem.fresh])
  | some kv =>
      rw [hfind] at h
      exact hv.2 kv (List.mem_of_find?_eq_some hfind) h

end RawParser

namespace RawParser

/-! ## The step contracts of the parsing functions

One proposition per parsing function, stating what a completed call
guarantees: the frame is kept, `fail`-marked cache items stay marked
(`parse_nt_rules` may flip the one item its caller owns), validity is
preserved, and the failing functions restore the cursor.  The helpers
that receive a saved position `sp` restore to `sp` and need `sp` to be a
valid position; the others restore to their entry position. -/

/-- Contract of `parse_nt` at fuel `f`. -/
def NtOK (f : Nat) : Prop :=
  ∀ (rho : Type) (g : Grammar rho) (name : String) (s : PState rho) (out : POut rho),
    parse_nt f g name s = some out →
    StepOK s out.state ∧ Stable s out.state ∧
    (StateValid s → ∀ s', out = .fail s' → s'.tb.pos = s.tb.pos)

/-- Contract of `parse_nt_rules` at fuel `f`: stability may except the
owning cache item, which exists only when the cache is on. -/
def NtRulesOK (f : Nat) : Prop :=
  ∀ (rho : Type) (g : Grammar rho) (name : String) (ep : TextPos) (s : PState rho)
    (out : POut rho),
    parse_nt_rules f g name ep s = some out →
    Frame s out.state ∧
    (∀ p n, flag_fail s p n →
      flag_fail out.state p n ∨ (s.cacheEnabled = true ∧ p = ep.pos ∧ n = name)) ∧
    (StateValid s → StateValid out.state) ∧
    (StateValid s → ∀ s', out = .fail s' → s'.tb.pos = s.tb.pos)

/-- Contract of `try_rules` at fuel `f`. -/
def TryRulesOK (f : Nat) : Prop :=
  ∀ (rho : Type) (g : Grammar rho) (rules : List (GRule rho)) (s : PState rho)
    (out : POut rho),
    try_rules f g rules s = some out →
    StepOK s out.state ∧ Stable s out.state ∧
    (StateValid s → ∀ s', out = .fail s' → s'.tb.pos = s.tb.pos)

/-- Contract of `lr_scan` at fuel `f`. -/
def LrScanOK (f : Nat) : Prop :=
  ∀ (rho : Type) (g : Grammar rho) (rules : List (GRule rho)) (res : Res rho)
    (s : PState rho) (out : POut rho),
    lr_scan f g rules res s = some out →
    StepOK s out.state ∧ Stable s out.state

/-- Contract of `lr_loop` at fuel `f`. -/
def LrLoopOK (f : Nat) : Prop :=
  ∀ (rho : Type) (g : Grammar rho) (rules : List (GRule rho)) (res : Res rho)
    (s : PState rho) (r2 : Res rho) (s2 : PState rho),
    lr_loop f g rules res s = some (r2, s2) →
    StepOK s s2 ∧ Stable s s2

/-- Contract of `parse_rule` at fuel `f`. -/
def RuleOK (f : Nat) : Prop :=
  ∀ (rho : Type) (g : Grammar rho) (elems : List (Element rho)) (prev : Res rho)
    (rule : Option (GRule rho)) (s : PState rho) (out : POut rho),
    parse_rule f g elems prev rule s = some out →
    StepOK s out.state ∧ Stable s out.state ∧
    (StateValid s → ∀ s', out = .fail s' → s'.tb.pos = s.tb.pos)

/-- Contract of `parse_rule_core` at fuel `f`. -/
def RuleCoreOK (f : Nat) : Prop :=
  ∀ (rho : Type) (g : Grammar rho) (e : Element rho) (next : List (Element rho))
    (prev : Res rho) (rule : Option (GRule rho)) (s : PState rho) (out : POut rho),
    parse_rule_core f g e next prev rule s = some out →
    StepOK s out.state ∧ Stable s out.state ∧
    (StateValid s → ∀ s', out = .fail s' → s'.tb.pos = s.tb.pos)

/-- Contract of `parse_rule_post` at fuel `f`. -/
def PostOK (f : Nat) : Prop :=
  ∀ (rho : Type) (g : Grammar rho) (e : Element rho) (next : List (Element rho))
    (prev : Res rho) (rule : Option (GRule rho)) (sp : TextPos) (s : PState rho)
    (out : POut rho),
    parse_rule_post f g e next prev rule sp s = some out →
    Frame s out.state ∧ Stable s out.state ∧
    ((StateValid s → PosValid s.tb sp) →
      (StateValid s → StateValid out.state) ∧
      (StateValid s → ∀ s', out = .fail s' → s'.tb.pos = sp))

/-- Contract of `greedy_seq` at fuel `f`. -/
def GSeqOK (f : Nat) : Prop :=
  ∀ (rho : Type) (g : Grammar rho) (e : Element rho) (next : List (Element rho))
    (prev : Res rho) (rule : Option (GRule rho)) (seqElem : Res rho) (s : PState rho)
    (out : POut rho),
    greedy_seq f g e next prev rule seqElem s = some out →
    StepOK s out.state ∧ Stable s out.state

/-- Contract of `greedy_step` at fuel `f`. -/
def GStepOK (f : Nat) : Prop :=
  ∀ (rho : Type) (g : Grammar rho) (e : Element rho) (next : List (Element rho))
    (prev : Res rho) (rule : Option (GRule rho)) (seqElem : Res rho) (s : PState rho)
    (out : POut rho),
    greedy_step f g e next prev rule seqElem s = some out →
    StepOK s out.state ∧ Stable s out.state

/-- Contract of `greedy_ext` at fuel `f`. -/
def GExtOK (f : Nat) : Prop :=
  ∀ (rho : Type) (g : Grammar rho) (e : Element rho) (next : List (Element rho))
    (prev : Res rho) (rule : Option (GRule rho)) (seqElem : Res rho) (sp : TextPos)
    (s : PState rho) (out : POut rho),
    greedy_ext f g e next prev rule seqElem sp s = some out →
    Frame s out.state ∧ Stable s out.state ∧
    ((StateValid s → PosValid s.tb sp) → StateValid s → StateValid out.state)

/-- Contract of `greedy_fin` at fuel `f`. -/
def GFinOK (f : Nat) : Prop :=
  ∀ (rho : Type) (g : Grammar rho) (e : Element rho) (next : List (Element rho))
    (prev : Res rho) (rule : Option (GRule rho)) (seqElem : Res rho) (s : PState rho)
    (out : POut rho),
    greedy_fin f g e next prev rule seqElem s = some out →
    StepOK s out.state ∧ Stable s out.state

/-- Contract of `parse_seq` at fuel `f`. -/
def SeqOK (f : Nat) : Prop :=
  ∀ (rho : Type) (g : Grammar rho) (e : Element rho) (next : List (Element rho))
    (prevSeq prev : Res rho) (rule : Option (GRule rho)) (s : PState rho) (out : POut rho),
    parse_seq f g e next prevSeq prev rule s = some out →
    StepOK s out.state ∧ Stable s out.state ∧
    (StateValid s → ∀ s', out = .fail s' → s'.tb.pos = s.tb.pos)

/-- Contract of `parse_seq_step` at fuel `f`. -/
def SeqStepOK (f : Nat) : Prop :=
  ∀ (rho : Type) (g : Grammar rho) (e : Element rho) (next : List (Element rho))
    (prevSeq prev : Res rho) (rule : Option (GRule rho)) (s : PState rho) (out : POut rho),
    parse_seq_step f g e next prevSeq prev rule s = some out →
    StepOK s out.state ∧ Stable s out.state ∧
    (StateValid s → ∀ s', out = .fail s' → s'.tb.pos = s.tb.pos)

/-- Contract of `parse_seq_ext` at fuel `f`. -/
def SeqExtOK (f : Nat) : Prop :=
  ∀ (rho : Type) (g : Grammar rho) (e : Element rho) (next : List (Element rho))
    (prevSeq prev : Res rho) (rule : Option (GRule rho)) (sp : TextPos) (s : PState rho)
    (out : POut rho),
    parse_seq_ext f g e next prevSeq prev rule sp s = some out →
    Frame s out.state ∧ Stable s out.state ∧
    ((StateValid s → PosValid s.tb sp) →
      (StateValid s → StateValid out.state) ∧
      (StateValid s → ∀ s', out = .fail s' → s'.tb.pos = sp))

/-- Contract of `parse_seq_fin` at fuel `f`. -/
def SeqFinOK (f : Nat) : Prop :=
  ∀ (rho : Type) (g : Grammar rho) (e : Element rho) (next : List (Element rho))
    (prevSeq prev : Res rho) (rule : Option (GRule rho)) (sp : TextPos) (s : PState rho)
    (out : POut rho),
    parse_seq_fin f g e next prevSeq prev rule sp s = some out →
    Frame s out.state ∧ Stable s out.state ∧
    ((StateValid s → PosValid s.tb sp) →
      (StateValid s → StateValid out.state) ∧
      (StateValid s → ∀ s', out = .fail s' → s'.tb.pos = sp))

/-- Contract of `parse_element` at fuel `f`: the cursor is restored on
failure whenever the element carries no `add_char_function`. -/
def ElemOK (f : Nat) : Prop :=
  ∀ (rho : Type) (g : Grammar rho) (e : Element rho) (prev : Res rho) (s : PState rho)
    (out : POut rho),
    parse_element f g e prev s = some out →
    StepOK s out.state ∧ Stable s out.state ∧
    (StateValid s → e.cb.addCharF = none → ∀ s', out = .fail s' → s'.tb.pos = s.tb.pos)

/-- Contract of `grouping_try` at fuel `f`. -/
def GroupOK (f : Nat) : Prop :=
  ∀ (rho : Type) (g : Grammar rho) (rules : List (GRule rho)) (prev : Res rho)
    (s : PState rho) (out : POut rho),
    grouping_try f g rules prev s = some out →
    StepOK s out.state ∧ Stable s out.state ∧
    (StateValid s → ∀ s', out = .fail s' → s'.tb.pos = s.tb.pos)

/-- All eighteen contracts at fuel `f`. -/
def MasterOK (f : Nat) : Prop :=
  NtOK f ∧ NtRulesOK f ∧ TryRulesOK f ∧ LrScanOK f ∧ LrLoopOK f ∧ RuleOK f ∧
  RuleCoreOK f ∧ PostOK f ∧ GSeqOK f ∧ GStepOK f ∧ GExtOK f ∧ GFinOK f ∧ SeqOK f ∧
  SeqStepOK f ∧ SeqExtOK f ∧ SeqFinOK f ∧ ElemOK f ∧ GroupOK f

/-- At fuel zero every parsing function runs out of fuel. -/
theorem master_zero : MasterOK 0 := by
  refine ⟨?_, ?_, ?_, ?_, ?_, ?_, ?_, ?_, ?_, ?_, ?_, ?_, ?_, ?_, ?_, ?_, ?_, ?_⟩ <;>
    (intros rho; intros) <;>
    simp_all [parse_nt, parse_nt_rules, try_rules, lr_scan, lr_loop, parse_rule,
      parse_rule_core, parse_rule_post, greedy_seq, greedy_step, greedy_ext, greedy_fin,
      parse_seq, parse_seq_step, parse_seq_ext, parse_seq_fin, parse_element, grouping_try]

end RawParser

namespace RawParser

/-- Step case for `try_rules`. -/
theorem try_rules_step (f : Nat) (ih : MasterOK f) : TryRulesOK (f + 1) := by
  obtain ⟨ihnt, ihntr, ihtr, ihls, ihll, ihpr, ihprc, ihprp, ihgs, ihgst, ihge, ihgf,
    ihps, ihpss, ihpse, ihpsf, ihpe, ihgt⟩ := ih
  intro rho g rules s out hp
  cases rules with
  | nil =>
      simp only [try_rules] at hp
      obtain rfl := Option.some.inj hp
      exact ⟨stepok_refl s, stable_refl s, fun _ s' h' => by cases h'; rfl⟩
  | cons rule rest =>
      simp only [try_rules] at hp
      split at hp
      · exact Option.noConfusion hp
      · rename_i r s1 heq
        obtain rfl := Option.some.inj hp
        obtain ⟨h1, h2, _⟩ := ihpr rho g rule.elements none (some rule) s (.ok r s1) heq
        exact ⟨h1, h2, fun _ s' h' => by cases h'⟩
      · rename_i s1 heq
        obtain ⟨h1, h2, h3⟩ := ihpr rho g rule.elements none (some rule) s (.fail s1) heq
        obtain ⟨t1, t2, t3⟩ := ihtr rho g rest s1 out hp
        refine ⟨stepok_trans h1 t1, stable_trans h2 t2, fun hv s' h' => ?_⟩
        exact (t3 (h1.2 hv) s' h').trans (h3 hv s1 rfl)

end RawParser

namespace RawParser

/-- Step case for `grouping_try`. -/
theorem grouping_try_step (f : Nat) (ih : MasterOK f) : GroupOK (f + 1) := by
  obtain ⟨ihnt, ihntr, ihtr, ihls, ihll, ihpr, ihprc, ihprp, ihgs, ihgst, ihge, ihgf,
    ihps, ihpss, ihpse, ihpsf, ihpe, ihgt⟩ := ih
  intro rho g rules prev s out hp
  cases rules with
  | nil =>
      simp only [grouping_try] at hp
      obtain rfl := Option.some.inj hp
      exact ⟨stepok_refl s, stable_refl s, fun _ s' h' => by cases h'; rfl⟩
  | cons rule rest =>
      simp only [grouping_try] at hp
      split at hp
      · exact Option.noConfusion hp
      · rename_i r s1 heq
        obtain rfl := Option.some.inj hp
        obtain ⟨h1, h2, _⟩ := ihpr rho g rule.elements prev (some rule) s (.ok r s1) heq
        exact ⟨h1, h2, fun _ s' h' => by cases h'⟩
      · rename_i s1 heq
        obtain ⟨h1, h2, h3⟩ := ihpr rho g rule.elements prev (some rule) s (.fail s1) heq
        obtain ⟨t1, t2, t3⟩ := ihgt rho g rest prev s1 out hp
        refine ⟨stepok_trans h1 t1, stable_trans h2 t2, fun hv s' h' => ?_⟩
        exact (t3 (h1.2 hv) s' h').trans (h3 hv s1 rfl)

/-- Step case for `lr_scan`. -/
theorem lr_scan_step (f : Nat) (ih : MasterOK f) : LrScanOK (f + 1) := by
  obtain ⟨ihnt, ihntr, ihtr, ihls, ihll, ihpr, ihprc, ihprp, ihgs, ihgst, ihge, ihgf,
    ihps, ihpss, ihpse, ihpsf, ihpe, ihgt⟩ := ih
  intro rho g rules res s out hp
  cases rules with
  | nil =>
      simp only [lr_scan] at hp
      obtain rfl := Option.some.inj hp
      exact ⟨stepok_refl s, stable_refl s⟩
  | cons rule rest =>
      simp only [lr_scan] at hp
      split at hp
      · -- rec_start_function vetoed: scan the rest from the same state
        obtain ⟨t1, t2⟩ := ihls rho g rest res s out hp
        exact ⟨t1, t2⟩
      · rename_i startRes heq0
        split at hp
        · exact Option.noConfusion hp
        · rename_i r s1 heq
          obtain rfl := Option.some.inj hp
          obtain ⟨h1, h2, _⟩ := ihpr rho g rule.elements startRes (some rule) s (.ok r s1) heq
          exact ⟨h1, h2⟩
        · rename_i s1 heq
          obtain ⟨h1, h2, _⟩ := ihpr rho g rule.elements startRes (some rule) s (.fail s1) heq
          obtain ⟨t1, t2⟩ := ihls rho g rest res s1 out hp
          exact ⟨stepok_trans h1 t1, stable_trans h2 t2⟩

/-- Step case for `lr_loop`. -/
theorem lr_loop_step (f : Nat) (ih : MasterOK f) : LrLoopOK (f + 1) := by
  obtain ⟨ihnt, ihntr, ihtr, ihls, ihll, ihpr, ihprc, ihprp, ihgs, ihgst, ihge, ihgf,
    ihps, ihpss, ihpse, ihpsf, ihpe, ihgt⟩ := ih
  intro rho g rules res s r2 s2 hp
  simp only [lr_loop] at hp
  split at hp
  · exact Option.noConfusion hp
  · rename_i s1 heq
    obtain ⟨rfl, rfl⟩ := Prod.mk.injEq .. |>.mp (Option.some.inj hp)
    obtain ⟨h1, h2⟩ := ihls rho g rules res s (.fail s1) heq
    exact ⟨h1, h2⟩
  · rename_i r s1 heq
    obtain ⟨h1, h2⟩ := ihls rho g rules res s (.ok r s1) heq
    obtain ⟨t1, t2⟩ := ihll rho g rules r s1 r2 s2 hp
    exact ⟨stepok_trans h1 t1, stable_trans h2 t2⟩

end RawParser

namespace RawParser

/-- Step case for `greedy_fin`. -/
theorem greedy_fin_step (f : Nat) (ih : MasterOK f) : GFinOK (f + 1) := by
  obtain ⟨ihnt, ihntr, ihtr, ihls, ihll, ihpr, ihprc, ihprp, ihgs, ihgst, ihge, ihgf,
    ihps, ihpss, ihpse, ihpsf, ihpe, ihgt⟩ := ih
  intro rho g e next prev rule seqElem s out hp
  simp only [greedy_fin] at hp
  split at hp
  · obtain rfl := Option.some.inj hp
    exact ⟨stepok_refl s, stable_refl s⟩
  · rename_i res heq0
    split at hp
    · exact Option.noConfusion hp
    · rename_i r s1 heq
      obtain rfl := Option.some.inj hp
      obtain ⟨h1, h2, _⟩ := ihpr rho g next res rule s (.ok r s1) heq
      exact ⟨h1, h2⟩
    · rename_i s1 heq
      obtain rfl := Option.some.inj hp
      obtain ⟨h1, h2, _⟩ := ihpr rho g next res rule s (.fail s1) heq
      exact ⟨h1, h2⟩

/-- Step case for `greedy_ext`. -/
theorem greedy_ext_step (f : Nat) (ih : MasterOK f) : GExtOK (f + 1) := by
  obtain ⟨ihnt, ihntr, ihtr, ihls, ihll, ihpr, ihprc, ihprp, ihgs, ihgst, ihge, ihgf,
    ihps, ihpss, ihpse, ihpsf, ihpe, ihgt⟩ := ih
  intro rho g e next prev rule seqElem sp s out hp
  simp only [greedy_ext] at hp
  split at hp
  · exact Option.noConfusion hp
  · rename_i newElem s1 heq
    obtain ⟨h1, h2, _⟩ := ihpe rho g e seqElem s (.ok newElem s1) heq
    obtain ⟨t1, t2⟩ := ihgs rho g e next prev rule newElem s1 out hp
    exact ⟨frame_trans h1.1 t1.1, stable_trans h2 t2,
      fun _ hv => t1.2 (h1.2 hv)⟩
  · rename_i s1 heq
    obtain ⟨h1, h2, _⟩ := ihpe rho g e seqElem s (.fail s1) heq
    obtain ⟨t1, t2⟩ := ihgf rho g e next prev rule seqElem (set_pos_state sp s1) out hp
    refine ⟨frame_trans h1.1 (frame_trans (frame_set_pos s1 sp) t1.1),
      stable_trans h2 (stable_trans (stable_set_pos s1 sp) t2), fun hspc hv => ?_⟩
    have hv1 : StateValid s1 := h1.2 hv
    have hsp1 : PosValid s1.tb sp := (frame_posvalid h1.1 sp).mp (hspc hv)
    exact t1.2 ((stepok_set_pos s1 sp (fun _ => hsp1)).2 hv1)

/-- Step case for `greedy_step`. -/
theorem greedy_step_step (f : Nat) (ih : MasterOK f) : GStepOK (f + 1) := by
  obtain ⟨ihnt, ihntr, ihtr, ihls, ihll, ihpr, ihprc, ihprp, ihgs, ihgst, ihge, ihgf,
    ihps, ihpss, ihpse, ihpsf, ihpe, ihgt⟩ := ih
  intro rho g e next prev rule seqElem s out hp
  simp only [greedy_step] at hp
  split at hp
  · -- a chain rule is present
    rename_i chain hchain
    split at hp
    · exact Option.noConfusion hp
    · rename_i s1 heq
      obtain ⟨h1, h2, _⟩ := ihpr rho g chain none none s (.fail s1) heq
      obtain ⟨t1, t2⟩ := ihgf rho g e next prev rule seqElem s1 out hp
      exact ⟨stepok_trans h1 t1, stable_trans h2 t2⟩
    · rename_i r s1 heq
      obtain ⟨h1, h2, _⟩ := ihpr rho g chain none none s (.ok r s1) heq
      obtain ⟨t1, t2, t3⟩ := ihge rho g e next prev rule seqElem s.tb.pos s1 out hp
      refine ⟨⟨frame_trans h1.1 t1, fun hv => ?_⟩, stable_trans h2 t2⟩
      exact t3 (fun _ => (frame_posvalid h1.1 s.tb.pos).mp hv.1) (h1.2 hv)
  · obtain ⟨t1, t2, t3⟩ := ihge rho g e next prev rule seqElem s.tb.pos s out hp
    exact ⟨⟨t1, fun hv => t3 (fun _ => hv.1) hv⟩, t2⟩

/-- Step case for `greedy_seq`. -/
theorem greedy_seq_step (f : Nat) (ih : MasterOK f) : GSeqOK (f + 1) := by
  obtain ⟨ihnt, ihntr, ihtr, ihls, ihll, ihpr, ihprc, ihprp, ihgs, ihgst, ihge, ihgf,
    ihps, ihpss, ihpse, ihpsf, ihpe, ihgt⟩ := ih
  intro rho g e next prev rule seqElem s out hp
  simp only [greedy_seq] at hp
  split at hp
  · -- avoid: try to terminate the sequence first
    split at hp
    · exact ihgf rho g e next prev rule seqElem s out hp
    · rename_i res heq0
      split at hp
      · exact Option.noConfusion hp
      · rename_i r s1 heq
        obtain rfl := Option.some.inj hp
        obtain ⟨h1, h2, _⟩ := ihpr rho g next res rule s (.ok r s1) heq
        exact ⟨h1, h2⟩
      · rename_i s1 heq
        obtain ⟨h1, h2, _⟩ := ihpr rho g next res rule s (.fail s1) heq
        obtain ⟨t1, t2⟩ := ihgst rho g e next prev rule seqElem s1 out hp
        exact ⟨stepok_trans h1 t1, stable_trans h2 t2⟩
  · exact ihgst rho g e next prev rule seqElem s out hp

end RawParser

namespace RawParser

/-- Step case for `parse_seq_fin`. -/
theorem parse_seq_fin_step (f : Nat) (ih : MasterOK f) : SeqFinOK (f + 1) := by
  obtain ⟨ihnt, ihntr, ihtr, ihls, ihll, ihpr, ihprc, ihprp, ihgs, ihgst, ihge, ihgf,
    ihps, ihpss, ihpse, ihpsf, ihpe, ihgt⟩ := ih
  intro rho g e next prevSeq prev rule sp s out hp
  simp only [parse_seq_fin] at hp
  have hfr1 : Frame s (set_pos_state sp s) := frame_set_pos s sp
  have hst1 : Stable s (set_pos_state sp s) := stable_set_pos s sp
  split at hp
  · -- not avoid: fold the accumulator and parse the tail
    split at hp
    · -- add_seq_function vetoed
      obtain rfl := Option.some.inj hp
      refine ⟨hfr1, hst1, fun hspc => ⟨fun hv => (stepok_set_pos s sp hspc).2 hv, ?_⟩⟩
      intro hv s' h'
      cases h'
      exact set_pos_state_pos s sp hv (hspc hv)
    · rename_i res heq0
      split at hp
      · exact Option.noConfusion hp
      · rename_i r s2 heq
        obtain rfl := Option.some.inj hp
        obtain ⟨h1, h2, _⟩ := ihpr rho g next res rule (set_pos_state sp s) (.ok r s2) heq
        exact ⟨frame_trans hfr1 h1.1, stable_trans hst1 h2,
          fun hspc => ⟨fun hv => h1.2 ((stepok_set_pos s sp hspc).2 hv),
            fun _ s' h' => by cases h'⟩⟩
      · rename_i s2 heq
        obtain rfl := Option.some.inj hp
        obtain ⟨h1, h2, h3⟩ := ihpr rho g next res rule (set_pos_state sp s) (.fail s2) heq
        refine ⟨frame_trans hfr1 h1.1, stable_trans hst1 h2, fun hspc => ?_⟩
        refine ⟨fun hv => h1.2 ((stepok_set_pos s sp hspc).2 hv), fun hv s' h' => ?_⟩
        cases h'
        have hv1 := (stepok_set_pos s sp hspc).2 hv
        exact (h3 hv1 s2 rfl).trans (set_pos_state_pos s sp hv (hspc hv))
  · -- avoid: termination was already attempted, fail
    obtain rfl := Option.some.inj hp
    refine ⟨hfr1, hst1, fun hspc => ⟨fun hv => (stepok_set_pos s sp hspc).2 hv, ?_⟩⟩
    intro hv s' h'
    cases h'
    exact set_pos_state_pos s sp hv (hspc hv)

/-- Step case for `parse_seq_ext`. -/
theorem parse_seq_ext_step (f : Nat) (ih : MasterOK f) : SeqExtOK (f + 1) := by
  obtain ⟨ihnt, ihntr, ihtr, ihls, ihll, ihpr, ihprc, ihprp, ihgs, ihgst, ihge, ihgf,
    ihps, ihpss, ihpse, ihpsf, ihpe, ihgt⟩ := ih
  intro rho g e next prevSeq prev rule sp s out hp
  simp only [parse_seq_ext] at hp
  split at hp
  · exact Option.noConfusion hp
  · rename_i seqElem s1 heq
    obtain ⟨h1, h2, _⟩ := ihpe rho g e prevSeq s (.ok seqElem s1) heq
    split at hp
    · exact Option.noConfusion hp
    · rename_i r s2 heq2
      obtain rfl := Option.some.inj hp
      obtain ⟨q1, q2, _⟩ := ihps rho g e next seqElem prev rule s1 (.ok r s2) heq2
      exact ⟨frame_trans h1.1 q1.1, stable_trans h2 q2,
        fun _ => ⟨fun hv => q1.2 (h1.2 hv), fun _ s' h' => by cases h'⟩⟩
    · rename_i s2 heq2
      obtain ⟨q1, q2, _⟩ := ihps rho g e next seqElem prev rule s1 (.fail s2) heq2
      obtain ⟨t1, t2, t3⟩ := ihpsf rho g e next prevSeq prev rule sp s2 out hp
      have hfr : Frame s s2 := frame_trans h1.1 q1.1
      refine ⟨frame_trans hfr t1, stable_trans (stable_trans h2 q2) t2, fun hspc => ?_⟩
      constructor
      · intro hv
        have hv2 : StateValid s2 := q1.2 (h1.2 hv)
        have hsp2 : PosValid s2.tb sp := (frame_posvalid hfr sp).mp (hspc hv)
        exact (t3 (fun _ => hsp2)).1 hv2
      · intro hv s' h'
        have hv2 : StateValid s2 := q1.2 (h1.2 hv)
        have hsp2 : PosValid s2.tb sp := (frame_posvalid hfr sp).mp (hspc hv)
        exact (t3 (fun _ => hsp2)).2 hv2 s' h'
  · rename_i s1 heq
    obtain ⟨h1, h2, _⟩ := ihpe rho g e prevSeq s (.fail s1) heq
    obtain ⟨t1, t2, t3⟩ := ihpsf rho g e next prevSeq prev rule sp s1 out hp
    refine ⟨frame_trans h1.1 t1, stable_trans h2 t2, fun hspc => ?_⟩
    constructor
    · intro hv
      have hv1 : StateValid s1 := h1.2 hv
      have hsp1 : PosValid s1.tb sp := (frame_posvalid h1.1 sp).mp (hspc hv)
      exact (t3 (fun _ => hsp1)).1 hv1
    · intro hv s' h'
      have hv1 : StateValid s1 := h1.2 hv
      have hsp1 : PosValid s1.tb sp := (frame_posvalid h1.1 sp).mp (hspc hv)
      exact (t3 (fun _ => hsp1)).2 hv1 s' h'

end RawParser

namespace RawParser

/-- Step case for `parse_seq_step`. -/
theorem parse_seq_step_step (f : Nat) (ih : MasterOK f) : SeqStepOK (f + 1) := by
  obtain ⟨ihnt, ihntr, ihtr, ihls, ihll, ihpr, ihprc, ihprp, ihgs, ihgst, ihge, ihgf,
    ihps, ihpss, ihpse, ihpsf, ihpe, ihgt⟩ := ih
  intro rho g e next prevSeq prev rule s out hp
  simp only [parse_seq_step] at hp
  split at hp
  · -- a chain rule is present
    rename_i chain hchain
    split at hp
    · exact Option.noConfusion hp
    · rename_i s1 heq
      obtain ⟨h1, h2, _⟩ := ihpr rho g chain none none s (.fail s1) heq
      obtain ⟨t1, t2, t3⟩ := ihpsf rho g e next prevSeq prev rule s.tb.pos s1 out hp
      refine ⟨⟨frame_trans h1.1 t1, ?_⟩, stable_trans h2 t2, ?_⟩
      · intro hv
        exact (t3 (fun _ => (frame_posvalid h1.1 s.tb.pos).mp hv.1)).1 (h1.2 hv)
      · intro hv s' h'
        exact (t3 (fun _ => (frame_posvalid h1.1 s.tb.pos).mp hv.1)).2 (h1.2 hv) s' h'
    · rename_i r s1 heq
      obtain ⟨h1, h2, _⟩ := ihpr rho g chain none none s (.ok r s1) heq
      obtain ⟨t1, t2, t3⟩ := ihpse rho g e next prevSeq prev rule s.tb.pos s1 out hp
      refine ⟨⟨frame_trans h1.1 t1, ?_⟩, stable_trans h2 t2, ?_⟩
      · intro hv
        exact (t3 (fun _ => (frame_posvalid h1.1 s.tb.pos).mp hv.1)).1 (h1.2 hv)
      · intro hv s' h'
        exact (t3 (fun _ => (frame_posvalid h1.1 s.tb.pos).mp hv.1)).2 (h1.2 hv) s' h'
  · obtain ⟨t1, t2, t3⟩ := ihpse rho g e next prevSeq prev rule s.tb.pos s out hp
    exact ⟨⟨t1, fun hv => (t3 (fun _ => hv.1)).1 hv⟩, t2,
      fun hv s' h' => (t3 (fun _ => hv.1)).2 hv s' h'⟩

/-- Step case for `parse_seq`. -/
theorem parse_seq_step_lemma (f : Nat) (ih : MasterOK f) : SeqOK (f + 1) := by
  obtain ⟨ihnt, ihntr, ihtr, ihls, ihll, ihpr, ihprc, ihprp, ihgs, ihgst, ihge, ihgf,
    ihps, ihpss, ihpse, ihpsf, ihpe, ihgt⟩ := ih
  intro rho g e next prevSeq prev rule s out hp
  simp only [parse_seq] at hp
  split at hp
  · -- avoid: try to terminate the sequence first
    split at hp
    · obtain rfl := Option.some.inj hp
      exact ⟨stepok_refl s, stable_refl s, fun _ s' h' => by cases h'; rfl⟩
    · rename_i res heq0
      split at hp
      · exact Option.noConfusion hp
      · rename_i r s1 heq
        obtain rfl := Option.some.inj hp
        obtain ⟨h1, h2, _⟩ := ihpr rho g next res rule s (.ok r s1) heq
        exact ⟨h1, h2, fun _ s' h' => by cases h'⟩
      · rename_i s1 heq
        obtain ⟨h1, h2, h3⟩ := ihpr rho g next res rule s (.fail s1) heq
        obtain ⟨t1, t2, t3⟩ := ihpss rho g e next prevSeq prev rule s1 out hp
        refine ⟨stepok_trans h1 t1, stable_trans h2 t2, fun hv s' h' => ?_⟩
        exact (t3 (h1.2 hv) s' h').trans (h3 hv s1 rfl)
  · exact ihpss rho g e next prevSeq prev rule s out hp

end RawParser

namespace RawParser

/-- Step case for `parse_rule_post`. -/
theorem parse_rule_post_step (f : Nat) (ih : MasterOK f) : PostOK (f + 1) := by
  obtain ⟨ihnt, ihntr, ihtr, ihls, ihll, ihpr, ihprc, ihprp, ihgs, ihgst, ihge, ihgf,
    ihps, ihpss, ihpse, ihpsf, ihpe, ihgt⟩ := ih
  intro rho g e next prev rule sp s out hp
  simp only [parse_rule_post] at hp
  have hfr1 : Frame s (set_pos_state sp s) := frame_set_pos s sp
  have hst1 : Stable s (set_pos_state sp s) := stable_set_pos s sp
  split at hp
  · -- optional and not avoid: skip the element and parse the rest
    split at hp
    · -- skip callback vetoed
      obtain rfl := Option.some.inj hp
      refine ⟨hfr1, hst1, fun hspc => ⟨fun hv => (stepok_set_pos s sp hspc).2 hv, ?_⟩⟩
      intro hv s' h'
      cases h'
      exact set_pos_state_pos s sp hv (hspc hv)
    · rename_i sr heq0
      split at hp
      · exact Option.noConfusion hp
      · rename_i r s2 heq
        obtain rfl := Option.some.inj hp
        obtain ⟨h1, h2, _⟩ := ihpr rho g next sr rule (set_pos_state sp s) (.ok r s2) heq
        exact ⟨frame_trans hfr1 h1.1, stable_trans hst1 h2,
          fun hspc => ⟨fun hv => h1.2 ((stepok_set_pos s sp hspc).2 hv),
            fun _ s' h' => by cases h'⟩⟩
      · rename_i s2 heq
        obtain rfl := Option.some.inj hp
        obtain ⟨h1, h2, h3⟩ := ihpr rho g next sr rule (set_pos_state sp s) (.fail s2) heq
        refine ⟨frame_trans hfr1 h1.1, stable_trans hst1 h2, fun hspc => ?_⟩
        refine ⟨fun hv => h1.2 ((stepok_set_pos s sp hspc).2 hv), fun hv s' h' => ?_⟩
        cases h'
        have hv1 := (stepok_set_pos s sp hspc).2 hv
        exact (h3 hv1 s2 rfl).trans (set_pos_state_pos s sp hv (hspc hv))
  · -- not optional (or avoid): plain failure at the restored position
    obtain rfl := Option.some.inj hp
    refine ⟨hfr1, hst1, fun hspc => ⟨fun hv => (stepok_set_pos s sp hspc).2 hv, ?_⟩⟩
    intro hv s' h'
    cases h'
    exact set_pos_state_pos s sp hv (hspc hv)

/-- Step case for `parse_rule_core`. -/
theorem parse_rule_core_step (f : Nat) (ih : MasterOK f) : RuleCoreOK (f + 1) := by
  obtain ⟨ihnt, ihntr, ihtr, ihls, ihll, ihpr, ihprc, ihprp, ihgs, ihgst, ihge, ihgf,
    ihps, ihpss, ihpse, ihpsf, ihpe, ihgt⟩ := ih
  intro rho g e next prev rule s out hp
  simp only [parse_rule_core] at hp
  split at hp
  · -- sequence element
    split at hp
    · exact Option.noConfusion hp
    · -- the first element of the sequence failed
      rename_i s1 heq
      obtain ⟨h1, h2, _⟩ := ihpe rho g e (begin_seq_result e prev) s (.fail s1) heq
      obtain ⟨t1, t2, t3⟩ := ihprp rho g e next prev rule s.tb.pos s1 out hp
      refine ⟨⟨frame_trans h1.1 t1, ?_⟩, stable_trans h2 t2, ?_⟩
      · intro hv
        exact (t3 (fun _ => (frame_posvalid h1.1 s.tb.pos).mp hv.1)).1 (h1.2 hv)
      · intro hv s' h'
        exact (t3 (fun _ => (frame_posvalid h1.1 s.tb.pos).mp hv.1)).2 (h1.2 hv) s' h'
    · rename_i seqElem s1 heq
      obtain ⟨h1, h2, _⟩ := ihpe rho g e (begin_seq_result e prev) s (.ok seqElem s1) heq
      split at hp
      · -- back-tracking mode: parse_seq
        split at hp
        · exact Option.noConfusion hp
        · rename_i r s2 heq2
          obtain rfl := Option.some.inj hp
          obtain ⟨q1, q2, _⟩ := ihps rho g e next seqElem prev rule s1 (.ok r s2) heq2
          exact ⟨stepok_trans h1 q1, stable_trans h2 q2, fun _ s' h' => by cases h'⟩
        · rename_i s2 heq2
          obtain ⟨q1, q2, _⟩ := ihps rho g e next seqElem prev rule s1 (.fail s2) heq2
          obtain ⟨t1, t2, t3⟩ := ihprp rho g e next prev rule s.tb.pos s2 out hp
          have hfr : Frame s s2 := frame_trans h1.1 q1.1
          refine ⟨⟨frame_trans hfr t1, ?_⟩, stable_trans (stable_trans h2 q2) t2, ?_⟩
          · intro hv
            exact (t3 (fun _ => (frame_posvalid hfr s.tb.pos).mp hv.1)).1 (q1.2 (h1.2 hv))
          · intro hv s' h'
            exact (t3 (fun _ => (frame_posvalid hfr s.tb.pos).mp hv.1)).2 (q1.2 (h1.2 hv)) s' h'
      · -- greedy mode
        split at hp
        · exact Option.noConfusion hp
        · rename_i r s2 heq2
          obtain rfl := Option.some.inj hp
          obtain ⟨q1, q2⟩ := ihgs rho g e next prev rule seqElem s1 (.ok r s2) heq2
          exact ⟨stepok_trans h1 q1, stable_trans h2 q2, fun _ s' h' => by cases h'⟩
        · rename_i s2 heq2
          obtain ⟨q1, q2⟩ := ihgs rho g e next prev rule seqElem s1 (.fail s2) heq2
          obtain ⟨t1, t2, t3⟩ := ihprp rho g e next prev rule s.tb.pos s2 out hp
          have hfr : Frame s s2 := frame_trans h1.1 q1.1
          refine ⟨⟨frame_trans hfr t1, ?_⟩, stable_trans (stable_trans h2 q2) t2, ?_⟩
          · intro hv
            exact (t3 (fun _ => (frame_posvalid hfr s.tb.pos).mp hv.1)).1 (q1.2 (h1.2 hv))
          · intro hv s' h'
            exact (t3 (fun _ => (frame_posvalid hfr s.tb.pos).mp hv.1)).2 (q1.2 (h1.2 hv)) s' h'
  · -- plain element
    split at hp
    · exact Option.noConfusion hp
    · rename_i s1 heq
      obtain ⟨h1, h2, _⟩ := ihpe rho g e prev s (.fail s1) heq
      obtain ⟨t1, t2, t3⟩ := ihprp rho g e next prev rule s.tb.pos s1 out hp
      refine ⟨⟨frame_trans h1.1 t1, ?_⟩, stable_trans h2 t2, ?_⟩
      · intro hv
        exact (t3 (fun _ => (frame_posvalid h1.1 s.tb.pos).mp hv.1)).1 (h1.2 hv)
      · intro hv s' h'
        exact (t3 (fun _ => (frame_posvalid h1.1 s.tb.pos).mp hv.1)).2 (h1.2 hv) s' h'
    · rename_i elemRes s1 heq
      obtain ⟨h1, h2, _⟩ := ihpe rho g e prev s (.ok elemRes s1) heq
      split at hp
      · exact Option.noConfusion hp
      · rename_i r s2 heq2
        obtain rfl := Option.some.inj hp
        obtain ⟨q1, q2, _⟩ := ihpr rho g next elemRes rule s1 (.ok r s2) heq2
        exact ⟨stepok_trans h1 q1, stable_trans h2 q2, fun _ s' h' => by cases h'⟩
      · rename_i s2 heq2
        obtain ⟨q1, q2, _⟩ := ihpr rho g next elemRes rule s1 (.fail s2) heq2
        obtain ⟨t1, t2, t3⟩ := ihprp rho g e next prev rule s.tb.pos s2 out hp
        have hfr : Frame s s2 := frame_trans h1.1 q1.1
        refine ⟨⟨frame_trans hfr t1, ?_⟩, stable_trans (stable_trans h2 q2) t2, ?_⟩
        · intro hv
          exact (t3 (fun _ => (frame_posvalid hfr s.tb.pos).mp hv.1)).1 (q1.2 (h1.2 hv))
        · intro hv s' h'
          exact (t3 (fun _ => (frame_posvalid hfr s.tb.pos).mp hv.1)).2 (q1.2 (h1.2 hv)) s' h'

end RawParser

namespace RawParser

/-- Step case for `parse_rule`. -/
theorem parse_rule_step (f : Nat) (ih : MasterOK f) : RuleOK (f + 1) := by
  obtain ⟨ihnt, ihntr, ihtr, ihls, ihll, ihpr, ihprc, ihprp, ihgs, ihgst, ihge, ihgf,
    ihps, ihpss, ihpse, ihpsf, ihpe, ihgt⟩ := ih
  intro rho g elems prev rule s out hp
  cases elems with
  | nil =>
      simp only [parse_rule] at hp
      cases rule with
      | none =>
          obtain rfl := Option.some.inj hp
          exact ⟨stepok_refl s, stable_refl s, fun _ s' h' => by cases h'⟩
      | some r =>
          rcases hef : r.endF with _ | ef
          · simp only [hef] at hp
            obtain rfl := Option.some.inj hp
            exact ⟨stepok_refl s, stable_refl s, fun _ s' h' => by cases h'⟩
          · simp only [hef] at hp
            rcases ho : ef prev with _ | o
            · simp only [ho] at hp
              obtain rfl := Option.some.inj hp
              exact ⟨stepok_refl s, stable_refl s, fun _ s' h' => by cases h'; rfl⟩
            · simp only [ho] at hp
              obtain rfl := Option.some.inj hp
              exact ⟨stepok_refl s, stable_refl s, fun _ s' h' => by cases h'⟩
  | cons e next =>
      simp only [parse_rule] at hp
      split at hp
      · -- optional-and-avoid preface
        split at hp
        · obtain rfl := Option.some.inj hp
          exact ⟨stepok_refl s, stable_refl s, fun _ s' h' => by cases h'; rfl⟩
        · rename_i sr heq0
          split at hp
          · exact Option.noConfusion hp
          · rename_i r s1 heq
            obtain rfl := Option.some.inj hp
            obtain ⟨h1, h2, _⟩ := ihpr rho g next sr rule s (.ok r s1) heq
            exact ⟨h1, h2, fun _ s' h' => by cases h'⟩
          · rename_i s1 heq
            obtain ⟨h1, h2, h3⟩ := ihpr rho g next sr rule s (.fail s1) heq
            obtain ⟨t1, t2, t3⟩ := ihprc rho g e next prev rule s1 out hp
            refine ⟨stepok_trans h1 t1, stable_trans h2 t2, fun hv s' h' => ?_⟩
            exact (t3 (h1.2 hv) s' h').trans (h3 hv s1 rfl)
      · exact ihprc rho g e next prev rule s out hp

end RawParser

namespace RawParser

/-- Step case for `parse_element`. -/
theorem parse_element_step (f : Nat) (ih : MasterOK f) : ElemOK (f + 1) := by
  obtain ⟨ihnt, ihntr, ihtr, ihls, ihll, ihpr, ihprc, ihprp, ihgs, ihgst, ihge, ihgf,
    ihps, ihpss, ihpse, ihpsf, ihpe, ihgt⟩ := ih
  intro rho g e prev s out hp
  simp only [parse_element] at hp
  split at hp
  · -- non-terminal
    rename_i name hinfo
    split at hp
    · exact Option.noConfusion hp
    · rename_i s1 heq
      obtain rfl := Option.some.inj hp
      obtain ⟨h1, h2, h3⟩ := ihnt rho g name s (.fail s1) heq
      exact ⟨h1, h2, fun hv _ s' h' => by cases h'; exact h3 hv s1 rfl⟩
    · rename_i ntRes s1 heq
      obtain ⟨h1, h2, _⟩ := ihnt rho g name s (.ok ntRes s1) heq
      split at hp
      · -- condition vetoed: roll back
        obtain rfl := Option.some.inj hp
        refine ⟨⟨frame_trans h1.1 (frame_set_pos s1 s.tb.pos), ?_⟩,
          stable_trans h2 (stable_set_pos s1 s.tb.pos), ?_⟩
        · intro hv
          exact (stepok_set_pos s1 s.tb.pos
            (fun _ => (frame_posvalid h1.1 s.tb.pos).mp hv.1)).2 (h1.2 hv)
        · intro hv _ s' h'
          cases h'
          exact set_pos_state_pos s1 s.tb.pos (h1.2 hv)
            ((frame_posvalid h1.1 s.tb.pos).mp hv.1)
      · split at hp
        · -- no add_function: pass the previous result through
          obtain rfl := Option.some.inj hp
          exact ⟨h1, h2, fun _ _ s' h' => by cases h'⟩
        · rename_i af haf
          split at hp
          · -- add_function vetoed: roll back
            obtain rfl := Option.some.inj hp
            refine ⟨⟨frame_trans h1.1 (frame_set_pos s1 s.tb.pos), ?_⟩,
              stable_trans h2 (stable_set_pos s1 s.tb.pos), ?_⟩
            · intro hv
              exact (stepok_set_pos s1 s.tb.pos
                (fun _ => (frame_posvalid h1.1 s.tb.pos).mp hv.1)).2 (h1.2 hv)
            · intro hv _ s' h'
              cases h'
              exact set_pos_state_pos s1 s.tb.pos (h1.2 hv)
                ((frame_posvalid h1.1 s.tb.pos).mp hv.1)
          · obtain rfl := Option.some.inj hp
            exact ⟨h1, h2, fun _ _ s' h' => by cases h'⟩
  · -- grouping
    rename_i rules hinfo
    split at hp
    · exact Option.noConfusion hp
    · rename_i s1 heq
      obtain rfl := Option.some.inj hp
      obtain ⟨h1, h2, h3⟩ := ihgt rho g rules prev s (.fail s1) heq
      exact ⟨h1, h2, fun hv _ s' h' => by cases h'; exact h3 hv s1 rfl⟩
    · rename_i ruleRes s1 heq
      obtain ⟨h1, h2, _⟩ := ihgt rho g rules prev s (.ok ruleRes s1) heq
      split at hp
      · obtain rfl := Option.some.inj hp
        exact ⟨h1, h2, fun _ _ s' h' => by cases h'⟩
      · rename_i af haf
        split at hp
        · obtain rfl := Option.some.inj hp
          refine ⟨⟨frame_trans h1.1 (frame_set_pos s1 s.tb.pos), ?_⟩,
            stable_trans h2 (stable_set_pos s1 s.tb.pos), ?_⟩
          · intro hv
            exact (stepok_set_pos s1 s.tb.pos
              (fun _ => (frame_posvalid h1.1 s.tb.pos).mp hv.1)).2 (h1.2 hv)
          · intro hv _ s' h'
            cases h'
            exact set_pos_state_pos s1 s.tb.pos (h1.2 hv)
              ((frame_posvalid h1.1 s.tb.pos).mp hv.1)
        · obtain rfl := Option.some.inj hp
          exact ⟨h1, h2, fun _ _ s' h' => by cases h'⟩
  · -- end of input
    split at hp
    · obtain rfl := Option.some.inj hp
      exact ⟨stepok_refl s, stable_refl s, fun _ _ s' h' => by cases h'⟩
    · obtain rfl := Option.some.inj hp
      exact ⟨stepok_refl s, stable_refl s, fun _ _ s' h' => by cases h'; rfl⟩
  · -- literal character
    rename_i c hinfo
    split at hp
    · split at hp
      · -- no add_char_function
        obtain rfl := Option.some.inj hp
        exact ⟨stepok_tb_next s, stable_tb_next s, fun _ _ s' h' => by cases h'⟩
      · rename_i acf hacf
        split at hp
        · -- add_char_function vetoed: the buffer stays advanced
          obtain rfl := Option.some.inj hp
          refine ⟨stepok_tb_next s, stable_tb_next s, fun _ hnone s' h' => ?_⟩
          rw [hnone] at hacf
          exact Option.noConfusion hacf
        · obtain rfl := Option.some.inj hp
          exact ⟨stepok_tb_next s, stable_tb_next s, fun _ _ s' h' => by cases h'⟩
    · obtain rfl := Option.some.inj hp
      exact ⟨stepok_refl s, stable_refl s, fun _ _ s' h' => by cases h'; rfl⟩
  · -- character set
    rename_i contains hinfo
    split at hp
    · split at hp
      · obtain rfl := Option.some.inj hp
        exact ⟨stepok_tb_next s, stable_tb_next s, fun _ _ s' h' => by cases h'⟩
      · rename_i acf hacf
        split at hp
        · obtain rfl := Option.some.inj hp
          refine ⟨stepok_tb_next s, stable_tb_next s, fun _ hnone s' h' => ?_⟩
          rw [hnone] at hacf
          exact Option.noConfusion hacf
        · obtain rfl := Option.some.inj hp
          exact ⟨stepok_tb_next s, stable_tb_next s, fun _ _ s' h' => by cases h'⟩
    · obtain rfl := Option.some.inj hp
      exact ⟨stepok_refl s, stable_refl s, fun _ _ s' h' => by cases h'; rfl⟩
  · -- user terminal
    rename_i fn hinfo
    split at hp
    · obtain rfl := Option.some.inj hp
      exact ⟨stepok_refl s, stable_refl s, fun _ _ s' h' => by cases h'; rfl⟩
    · split at hp
      · obtain rfl := Option.some.inj hp
        exact ⟨stepok_tb_advance _ s, stable_tb_advance _ s, fun _ _ s' h' => by cases h'⟩
      · exact Option.noConfusion hp

end RawParser

namespace RawParser

/-- Step case for `parse_nt_rules`. -/
theorem parse_nt_rules_step (f : Nat) (ih : MasterOK f) : NtRulesOK (f + 1) := by
  obtain ⟨ihnt, ihntr, ihtr, ihls, ihll, ihpr, ihprc, ihprp, ihgs, ihgst, ihge, ihgf,
    ihps, ihpss, ihpse, ihpsf, ihpe, ihgt⟩ := ih
  intro rho g name ep s out hp
  simp only [parse_nt_rules] at hp
  split at hp
  · exact Option.noConfusion hp
  · -- no normal rule matched
    rename_i s1 heq
    obtain rfl := Option.some.inj hp
    obtain ⟨h1, h2, h3⟩ := ihtr rho g (find_nt g name).normal (nt_stack_push name s) (.fail s1) heq
    refine ⟨h1.1, fun p n hf => Or.inl (h2 p n hf), fun hv => h1.2 hv, fun hv s' h' => ?_⟩
    cases h'
    exact h3 hv s1 rfl
  · rename_i r s1 heq
    obtain ⟨h1, h2, _⟩ := ihtr rho g (find_nt g name).normal (nt_stack_push name s) (.ok r s1) heq
    split at hp
    · exact Option.noConfusion hp
    · rename_i r2 s2 heq2
      obtain rfl := Option.some.inj hp
      obtain ⟨l1, l2⟩ := ihll rho g (find_nt g name).recursive r s1 r2 s2 heq2
      have hfr12 : Frame s s2 := frame_trans h1.1 l1.1
      by_cases hce : s2.cacheEnabled = true
      · rw [if_pos hce]
        have hput : StepOK s2
            (cache_put s2 ep.pos name
              { success := .success, result := r2, nextPos := s2.tb.pos }) :=
          stepok_cache_put s2 ep.pos name _ (fun hv2 _ => hv2.1)
        refine ⟨frame_trans hfr12 hput.1, ?_, ?_, fun _ s' h' => by cases h'⟩
        · intro p n hf
          by_cases hk : p = ep.pos ∧ n = name
          · exact Or.inr ⟨by rw [← hfr12.2.2.2]; exact hce, hk.1, hk.2⟩
          · refine Or.inl ?_
            show (cache_get (cache_put s2 ep.pos name
              { success := .success, result := r2, nextPos := s2.tb.pos }) p n).success =
              SuccessT.fail
            rw [cache_get_put_ne s2 ep.pos p name n _ hk]
            exact l2 p n (h2 p n hf)
        · intro hv
          exact hput.2 (l1.2 (h1.2 hv))
      · rw [if_neg hce]
        exact ⟨hfr12, fun p n hf => Or.inl (l2 p n (h2 p n hf)),
          fun hv => l1.2 (h1.2 hv), fun _ s' h' => by cases h'⟩

/-- Step case for `parse_nt`. -/
theorem parse_nt_step (f : Nat) (ih : MasterOK f) : NtOK (f + 1) := by
  obtain ⟨ihnt, ihntr, ihtr, ihls, ihll, ihpr, ihprc, ihprp, ihgs, ihgst, ihge, ihgf,
    ihps, ihpss, ihpse, ihpsf, ihpe, ihgt⟩ := ih
  intro rho g name s out hp
  simp only [parse_nt] at hp
  split at hp
  · -- the cache is on
    rename_i hc
    split at hp
    · -- memoized success: replay
      rename_i hflag
      obtain rfl := Option.some.inj hp
      refine ⟨stepok_set_pos s _ (fun hv => valid_cache_item s s.tb.pos.pos name hv hflag),
        stable_set_pos s _, fun _ s' h' => by cases h'⟩
    · -- memoized failure
      obtain rfl := Option.some.inj hp
      exact ⟨stepok_refl s, stable_refl s, fun _ s' h' => by cases h'; rfl⟩
    · -- unknown: seed as fail and try the rules
      rename_i hflag
      have hseed : StepOK s (cache_put s s.tb.pos.pos name
          { cache_get s s.tb.pos.pos name with success := .fail }) :=
        stepok_cache_put s s.tb.pos.pos name _ (fun _ hsucc => absurd hsucc (by simp))
      have hseedst : Stable s (cache_put s s.tb.pos.pos name
          { cache_get s s.tb.pos.pos name with success := .fail }) :=
        stable_cache_put_fail s s.tb.pos.pos name _ rfl
      obtain ⟨n1, n2, n3, n4⟩ := ihntr rho g name s.tb.pos _ out hp
      refine ⟨⟨frame_trans hseed.1 n1, fun hv => n3 (hseed.2 hv)⟩, ?_, ?_⟩
      · intro p n hf
        rcases n2 p n (hseedst p n hf) with h | ⟨_, rfl, rfl⟩
        · exact h
        · unfold flag_fail at hf
          rw [hf] at hflag
          exact absurd hflag (by simp)
      · intro hv s' h'
        exact (n4 (hseed.2 hv) s' h').trans rfl
  · -- no cache configured
    rename_i hc
    obtain ⟨n1, n2, n3, n4⟩ := ihntr rho g name s.tb.pos s out hp
    refine ⟨⟨n1, n3⟩, ?_, n4⟩
    intro p n hf
    rcases n2 p n hf with h | ⟨hen, _, _⟩
    · exact h
    · exact absurd hen hc

end RawParser

namespace RawParser

/-- All step contracts hold at every fuel. -/
theorem master_ok (f : Nat) : MasterOK f := by
  induction f with
  | zero => exact master_zero
  | succ f ih =>
      exact ⟨parse_nt_step f ih, parse_nt_rules_step f ih, try_rules_step f ih,
        lr_scan_step f ih, lr_loop_step f ih, parse_rule_step f ih,
        parse_rule_core_step f ih, parse_rule_post_step f ih, greedy_seq_step f ih,
        greedy_step_step f ih, greedy_ext_step f ih, greedy_fin_step f ih,
        parse_seq_step_lemma f ih, parse_seq_step_step f ih, parse_seq_ext_step f ih,
        parse_seq_fin_step f ih, parse_element_step f ih, grouping_try_step f ih⟩

end RawParser

namespace RawParser

/-! ## Claim C1: position rollback on failure -/

/-- An element whose `add_char_function` always vetoes. -/
def veto_elem_ex : Element Nat := .mk (.chr 'a') {} { addCharF := some (fun _ _ => none) } none

/-- A parser state over the input `"ab"`. -/
def veto_state_ex : PState Nat := init_state Nat ['a', 'b']

/-- Counterexample for C1: when the character matches but the
`add_char_function` returns false, `parse_element` returns failure with
the buffer already advanced past the character -- the position at return
differs from the position at entry. -/
theorem parse_element_veto_counterexample :
    parse_element 1 [] veto_elem_ex none veto_state_ex =
      some (.fail { veto_state_ex with tb := text_buffer_next veto_state_ex.tb }) ∧
    (text_buffer_next veto_state_ex.tb).pos ≠ veto_state_ex.tb.pos := by
  exact ⟨by decide, by decide⟩

/-- The state a parse starts from satisfies the validity invariant. -/
theorem init_state_valid (rho : Type) (input : List Char) :
    StateValid (init_state rho input) := by
  constructor
  · show (init_state rho input).tb.pos = _
    rfl
  · intro kv hkv
    cases hkv

/-- C1 (amended): starting from any valid parser state (any state
reachable in a parse), every failing return of `parse_rule` and of
`parse_seq` leaves the buffer position -- offset, line and column --
exactly as it was on entry; the same holds for `parse_element` whenever
the element has no `add_char_function` (when it has one that vetoes
after a consumed character, the position may remain advanced, as the
counterexample shows; the callers restore it). -/
theorem parse_fail_restores_position (rho : Type) (f : Nat) (g : Grammar rho)
    (s : PState rho) (hv : StateValid s) :
    (∀ elems prev rule s', parse_rule f g elems prev rule s = some (.fail s') →
      s'.tb.pos = s.tb.pos) ∧
    (∀ e next prevSeq prev rule s',
      parse_seq f g e next prevSeq prev rule s = some (.fail s') →
      s'.tb.pos = s.tb.pos) ∧
    (∀ e prev s', e.cb.addCharF = none →
      parse_element f g e prev s = some (.fail s') → s'.tb.pos = s.tb.pos) := by
  obtain ⟨_, _, _, _, _, hpr, _, _, _, _, _, _, hps, _, _, _, hpe, _⟩ := master_ok f
  refine ⟨fun elems prev rule s' hp => ?_, fun e next prevSeq prev rule s' hp => ?_,
    fun e prev s' hacf hp => ?_⟩
  · exact (hpr rho g elems prev rule s _ hp).2.2 hv s' rfl
  · exact (hps rho g e next prevSeq prev rule s _ hp).2.2 hv s' rfl
  · exact (hpe rho g e prev s _ hp).2.2 hv hacf s' rfl

/-- Witness for C1 (amended): over `"ax"`, the rule `'a' 'b'` consumes
`'a'`, fails on `'b'`, and the failing return has restored the state,
position included. -/
theorem parse_fail_restores_position_witness :
    StateValid (init_state Nat ['a', 'x']) ∧
    (init_state Nat ['a', 'x']).tb.pos = (init_state Nat ['a', 'x']).tb.pos := by
  have hv := init_state_valid Nat ['a', 'x']
  refine ⟨hv, ?_⟩
  exact (parse_fail_restores_position Nat 5 [] (init_state Nat ['a', 'x']) hv).1
    [Element.mk (.chr 'a') {} {} none, Element.mk (.chr 'b') {} {} none]
    none none (init_state Nat ['a', 'x']) (by decide)

end RawParser

namespace RawParser

/-! ## Claim C3: cache behavior of `parse_nt` -/

/-- C3: with a configured cache, `parse_nt` (i) replays a memoized
success -- assigning the stored result and jumping the buffer to the
stored position, (ii) returns failure with the state untouched on a
memoized failure, (iii) on an `unknown` item seeds it to `fail` before
any rule is tried (the call continues as `parse_nt_rules` on the seeded
state), and (iv) when the call that owns the item returns, the item is
no longer `unknown`: it is `success` exactly when the call succeeded,
and then it stores the returned result and the post-parse position. -/
theorem parse_nt_cache_contract (rho : Type) (f : Nat) (g : Grammar rho) (name : String)
    (s : PState rho) (hc : s.cacheEnabled = true) :
    ((cache_get s s.tb.pos.pos name).success = .success →
      parse_nt (f + 1) g name s =
        some (.ok (cache_get s s.tb.pos.pos name).result
          (set_pos_state (cache_get s s.tb.pos.pos name).nextPos s))) ∧
    ((cache_get s s.tb.pos.pos name).success = .fail →
      parse_nt (f + 1) g name s = some (.fail s)) ∧
    ((cache_get s s.tb.pos.pos name).success = .unknown →
      parse_nt (f + 1) g name s =
        parse_nt_rules f g name s.tb.pos
          (cache_put s s.tb.pos.pos name
            { cache_get s s.tb.pos.pos name with success := .fail })) ∧
    (∀ out, (cache_get s s.tb.pos.pos name).success = .unknown →
      parse_nt (f + 1) g name s = some out →
      (cache_get out.state s.tb.pos.pos name).success ≠ .unknown ∧
      ((cache_get out.state s.tb.pos.pos name).success = .success ↔
        ∃ r s', out = .ok r s') ∧
      (∀ r s', out = .ok r s' →
        cache_get out.state s.tb.pos.pos name =
          { success := .success, result := r, nextPos := s'.tb.pos })) := by
  have hA : (cache_get s s.tb.pos.pos name).success = .success →
      parse_nt (f + 1) g name s =
        some (.ok (cache_get s s.tb.pos.pos name).result
          (set_pos_state (cache_get s s.tb.pos.pos name).nextPos s)) := by
    intro hflag
    simp only [parse_nt, hc, hflag]
    rfl
  have hB : (cache_get s s.tb.pos.pos name).success = .fail →
      parse_nt (f + 1) g name s = some (.fail s) := by
    intro hflag
    simp only [parse_nt, hc, hflag]
    rfl
  have hC : (cache_get s s.tb.pos.pos name).success = .unknown →
      parse_nt (f + 1) g name s =
        parse_nt_rules f g name s.tb.pos
          (cache_put s s.tb.pos.pos name
            { cache_get s s.tb.pos.pos name with success := .fail }) := by
    intro hflag
    simp only [parse_nt, hc, hflag]
    rfl
  refine ⟨hA, hB, hC, ?_⟩
  intro out hflag hp
  rw [hC hflag] at hp
  cases f with
  | zero => exact absurd hp (by simp [parse_nt_rules])
  | succ f' =>
      obtain ⟨_, _, ihtr, _, ihll, _, _, _, _, _, _, _, _, _, _, _, _, _⟩ := master_ok f'
      have hseedflag : flag_fail (cache_put s s.tb.pos.pos name
          { cache_get s s.tb.pos.pos name with success := .fail }) s.tb.pos.pos name := by
        unfold flag_fail
        rw [cache_get_put_eq]
      simp only [parse_nt_rules] at hp
      split at hp
      · exact Option.noConfusion hp
      · -- no rule matched: the seeded fail mark is still there
        rename_i s1 heq
        obtain rfl := Option.some.inj hp
        obtain ⟨_, hstable, _⟩ := ihtr rho g (find_nt g name).normal _ (.fail s1) heq
        have hflag1 : (cache_get s1 s.tb.pos.pos name).success = SuccessT.fail :=
          hstable _ _ hseedflag
        refine ⟨?_, ?_, ?_⟩
        · show (cache_get s1 s.tb.pos.pos name).success ≠ .unknown
          rw [hflag1]
          simp
        · constructor
          · intro h
            have h2 : (cache_get s1 s.tb.pos.pos name).success = .success := h
            rw [hflag1] at h2
            exact absurd h2 (by simp)
          · rintro ⟨r, s', h⟩
            exact absurd h (by simp)
        · intro r s' h
          exact absurd h (by simp)
      · rename_i r s1 heq
        split at hp
        · exact Option.noConfusion hp
        · rename_i r2 s2 heq2
          obtain rfl := Option.some.inj hp
          obtain ⟨ht1, _, _⟩ := ihtr rho g (find_nt g name).normal _ (.ok r s1) heq
          obtain ⟨hl1, _⟩ := ihll rho g (find_nt g name).recursive r s1 r2 s2 heq2
          have hce2 : s2.cacheEnabled = true := by
            have e1 : s2.cacheEnabled = s1.cacheEnabled := hl1.1.2.2.2
            have e2 : s1.cacheEnabled = s.cacheEnabled := ht1.1.2.2.2
            rw [e1, e2, hc]
          rw [if_pos hce2]
          have hitem : cache_get
              (nt_stack_pop (cache_put s2 s.tb.pos.pos name
                { success := .success, result := r2, nextPos := s2.tb.pos }))
              s.tb.pos.pos name =
              { success := .success, result := r2, nextPos := s2.tb.pos } := by
            show cache_get (cache_put s2 s.tb.pos.pos name
              { success := .success, result := r2, nextPos := s2.tb.pos })
              s.tb.pos.pos name = _
            exact cache_get_put_eq s2 s.tb.pos.pos name _
          refine ⟨?_, ?_, ?_⟩
          · show (cache_get (nt_stack_pop _) s.tb.pos.pos name).success ≠ .unknown
            rw [hitem]
            simp
          · constructor
            · intro _
              exact ⟨r2, _, rfl⟩
            · intro _
              show (cache_get (nt_stack_pop _) s.tb.pos.pos name).success = .success
              rw [hitem]
          · intro r3 s' h
            cases h
            exact hitem

end RawParser

namespace RawParser

/-- A one-rule grammar: `A ← 'a'`. -/
def ca_grammar : Grammar Nat :=
  [("A", { normal := [.mk [.mk (.chr 'a') {} {} none] none none], recursive := [] })]

/-- A cached state over `"a"` whose item for `(0, A)` is already marked
`fail`. -/
def cb_state : PState Nat :=
  { tb := text_buffer_assign_string ['a'], ntStack := [], cacheEnabled := true
    cache := [((0, "A"),
      { success := .fail, result := none
        nextPos := { pos := 0, curLine := 1, curColumn := 1 } })] }

/-- Witness for C3: with the item for `(0, A)` marked `fail`, `parse_nt`
refuses immediately and leaves the state untouched, even though the
input `"a"` would match the rule. -/
theorem parse_nt_cache_contract_witness :
    parse_nt 5 ca_grammar "A" cb_state = some (.fail cb_state) :=
  (parse_nt_cache_contract Nat 4 ca_grammar "A" cb_state rfl).2.1 (by decide)

end RawParser

namespace RawParser

/-! ## Claim C4: the left-recursive loop of `parse_nt` -/

/-- A run of the left-recursive loop exactly as the specification
describes it: from the current result, either a full pass over the
left-recursive rules matches none and the loop stops with that result,
or some pass succeeds first with a new result and the loop restarts from
the first rule. -/
inductive LrTrace {rho : Type} (g : Grammar rho) (rules : List (GRule rho)) :
    Res rho → PState rho → Res rho → PState rho → Prop where
  | stop (res : Res rho) (s : PState rho) (f : Nat) (s' : PState rho)
      (h : lr_scan f g rules res s = some (.fail s')) : LrTrace g rules res s res s'
  | step (res : Res rho) (s : PState rho) (r' : Res rho) (s' : PState rho)
      (r2 : Res rho) (s2 : PState rho) (f : Nat)
      (h : lr_scan f g rules res s = some (.ok r' s'))
      (t : LrTrace g rules r' s' r2 s2) : LrTrace g rules res s r2 s2

/-- C4: the left-recursive loop of `parse_nt`.  (i) Every completed
`lr_loop` run is a sequence of full passes over the left-recursive rule
list: each successful pass replaces the current result and restarts the
scan from the first rule, and the loop stops exactly when a full pass
matches no rule, returning the current result.  (ii) Within a pass, a
rule whose `rec_start_function` returns false is skipped.  (iii) A rule
without a `rec_start_function` is tried with an empty start result,
discarding the current result.  (iv) A rule whose `rec_start_function`
accepts is tried with the start result that function computed, and the
first success ends the pass.  (v) In `parse_nt_rules`, once a normal
rule has succeeded, the loop runs on the non-terminal's left-recursive
list starting from that rule's result. -/
theorem parse_nt_left_recursion_loop (rho : Type) :
    (∀ (f : Nat) (g : Grammar rho) (rules : List (GRule rho)) (res : Res rho)
      (s : PState rho) (r2 : Res rho) (s2 : PState rho),
      lr_loop f g rules res s = some (r2, s2) → LrTrace g rules res s r2 s2) ∧
    (∀ (f : Nat) (g : Grammar rho) (rule : GRule rho) (rest : List (GRule rho))
      (res : Res rho) (s : PState rho) rsf,
      rule.recStartF = some rsf → rsf res = none →
      lr_scan (f + 1) g (rule :: rest) res s = lr_scan f g rest res s) ∧
    (∀ (f : Nat) (g : Grammar rho) (rule : GRule rho) (rest : List (GRule rho))
      (res : Res rho) (s : PState rho),
      rule.recStartF = none →
      lr_scan (f + 1) g (rule :: rest) res s =
        match parse_rule f g rule.elements none (some rule) s with
        | none => none
        | some (.ok r s1) => some (.ok r s1)
        | some (.fail s1) => lr_scan f g rest res s1) ∧
    (∀ (f : Nat) (g : Grammar rho) (rule : GRule rho) (rest : List (GRule rho))
      (res : Res rho) (s : PState rho) rsf sr,
      rule.recStartF = some rsf → rsf res = some sr →
      lr_scan (f + 1) g (rule :: rest) res s =
        match parse_rule f g rule.elements sr (some rule) s with
        | none => none
        | some (.ok r s1) => some (.ok r s1)
        | some (.fail s1) => lr_scan f g rest res s1) ∧
    (∀ (f : Nat) (g : Grammar rho) (name : String) (ep : TextPos) (s : PState rho)
      (r : Res rho) (s1 : PState rho),
      try_rules f g (find_nt g name).normal (nt_stack_push name s) = some (.ok r s1) →
      parse_nt_rules (f + 1) g name ep s =
        match lr_loop f g (find_nt g name).recursive r s1 with
        | none => none
        | some (r2, s2) =>
            some (.ok r2 (nt_stack_pop
              (if s2.cacheEnabled = true then
                cache_put s2 ep.pos name
                  { success := .success, result := r2, nextPos := s2.tb.pos }
              else s2)))) := by
  refine ⟨?_, ?_, ?_, ?_, ?_⟩
  · intro f
    induction f with
    | zero =>
        intro g rules res s r2 s2 hp
        exact absurd hp (by simp [lr_loop])
    | succ f ihf =>
        intro g rules res s r2 s2 hp
        simp only [lr_loop] at hp
        split at hp
        · exact Option.noConfusion hp
        · rename_i s1 heq
          obtain ⟨rfl, rfl⟩ := Prod.mk.injEq .. |>.mp (Option.some.inj hp)
          exact .stop res s f s1 heq
        · rename_i r' s1 heq
          exact .step res s r' s1 r2 s2 f heq (ihf g rules r' s1 r2 s2 hp)
  · intro f g rule rest res s rsf hrs hveto
    simp only [lr_scan, hrs, hveto]
  · intro f g rule rest res s habs
    simp only [lr_scan, habs]
  · intro f g rule rest res s rsf sr hrs hsr
    simp only [lr_scan, hrs, hsr]
  · intro f g name ep s r s1 htr
    simp only [parse_nt_rules, htr]

/-- A left-recursive rule whose `rec_start_function` always refuses. -/
def lrw_rule : GRule Nat := .mk [] none (some (fun _ => none))

/-- Witness for C4: a rule whose `rec_start_function` refuses is skipped
by the scan, which proceeds with the rest of the list. -/
theorem parse_nt_left_recursion_loop_witness :
    lr_scan 3 ([] : Grammar Nat) [lrw_rule] (some 1) (init_state Nat []) =
      lr_scan 2 ([] : Grammar Nat) [] (some 1) (init_state Nat []) :=
  (parse_nt_left_recursion_loop Nat).2.1 2 [] lrw_rule [] (some 1) (init_state Nat [])
    (fun _ => none) rfl rfl

end RawParser
